import Mathlib

/-!
Shallow embedding of the go-neopersist object-to-graph mapping library.

The Go sources embedded here are:
  * the metadata resolver (`parseTagsFromType` over `crud` struct tags),
  * the generic repository operations (`Save`, `FindByID`, `FindAll`,
    `FindByProperty`, `Find`, `FindOne`, `FindFirst`, `Count`,
    `CountByProperty`) and the node-to-struct mapper `mapNodeToStruct`,
  * the persistence manager's `FindGraph` projection.

Conventions of the embedding:
  * Go `interface{}` values flowing out of the Neo4j driver are modelled by
    the closed variant `GoValue` (scalar, node, relationship); scalars and
    `nil` by `PrimValue`.
  * Go maps (`map[string]T`) are modelled as association lists with
    overwrite-on-insert (`mapInsert`) and first-match lookup (`List.lookup`);
    Go's unspecified map iteration order is fixed to list order, and every
    theorem that depends on the contents of a map is stated so that it does
    not depend on that order.
  * Go `reflect` struct access is modelled by `StructTy` (field name, field
    type, settability) and `Entity` (field name to current value); a
    `reflect.Value.Set` with a value of mismatched dynamic type, or with an
    invalid (nil) value, panics, which the embedding records as
    `Outcome.panics`.  An unchecked Go type assertion `x.(T)` likewise
    panics when it fails.
  * Fallible Go functions returning `(T, error)` are modelled by
    `Outcome T`, with the `ErrNotFound` sentinel as `GoErr.notFound` and
    every other `error` value as `GoErr.other msg`.
  * The query builder (`gocypher`) and the database are external
    collaborators.  The exact query data the repository hands to the
    builder is captured by `CypherQuery`, and the executor boundary
    (`DBRunner.Run`) by `Runner`; operations whose query is built by the
    caller are modelled directly on the buffered `EagerResult` the runner
    returned.
  * Go string helpers (`strings.Split`, `strings.HasPrefix`,
    `strings.HasSuffix`, `strings.TrimPrefix`) are re-implemented over
    `List Char` so that they compute by kernel reduction.
-/

namespace Neopersist

/-! ## Values, nodes, relationships, records -/

/-- Scalar (property-bag) values, including the `nil` interface value. -/
inductive PrimValue where
  | vNull : PrimValue
  | vInt (n : Int) : PrimValue
  | vStr (s : String) : PrimValue
  | vBool (b : Bool) : PrimValue
deriving DecidableEq

/-- A `neo4j.Node`: element id, labels and property bag (`Props`). -/
structure NodeVal where
  ElementId : String
  Labels : List String
  Props : List (String × PrimValue)
deriving DecidableEq

/-- A `neo4j.Relationship`: element id, endpoint ids, type name, properties. -/
structure RelVal where
  ElementId : String
  StartElementId : String
  EndElementId : String
  RelType : String
  Props : List (String × PrimValue)
deriving DecidableEq

/-- A value occurring in a result row (`interface{}` in the driver API). -/
inductive GoValue where
  | prim (p : PrimValue) : GoValue
  | node (nd : NodeVal) : GoValue
  | rel (r : RelVal) : GoValue
deriving DecidableEq

/-- One result row (`neo4j.Record`): column names and values, in order. -/
structure DbRecord where
  Keys : List String
  Values : List GoValue
deriving DecidableEq

/-- `Record.Get(key)`: the value of the first column named `key`, if any.
The driver returns `(nil, false)` when the key is absent, modelled as
`none`. -/
def DbRecord.get (r : DbRecord) (key : String) : Option GoValue :=
  (r.Keys.zip r.Values).lookup key

/-- A fully-buffered query result (`neo4j.EagerResult`). -/
structure EagerResult where
  Records : List DbRecord
deriving DecidableEq

/-! ## Go errors and outcomes -/

/-- A Go `error` value: the `ErrNotFound` sentinel, or any other error
(compared by `errors.Is` against the sentinel, which fails for `other`). -/
inductive GoErr where
  | notFound : GoErr
  | other (msg : String) : GoErr
deriving DecidableEq

/-- The observable outcome of running a Go function: a normal return, a
returned `error`, or a runtime panic. -/
inductive Outcome (α : Type) where
  | ok (a : α) : Outcome α
  | error (e : GoErr) : Outcome α
  | panics : Outcome α
deriving DecidableEq

/-! ## Go string helpers (re-implemented so they reduce in the kernel) -/

/-- `strings.HasPrefix s pre`. -/
def goHasPre (s pre : String) : Bool := pre.data.isPrefixOf s.data

/-- `strings.HasSuffix s suf`. -/
def goHasSuf (s suf : String) : Bool := suf.data.isSuffixOf s.data

/-- `strings.TrimPrefix s pre`. -/
def goTrimPre (s pre : String) : String :=
  if goHasPre s pre then String.mk (s.data.drop pre.data.length) else s

/-- Helper for `strings.Split s ","`: split a character list on commas,
`cur` being the (reversed) current chunk. -/
def splitCommaAux : List Char → List Char → List (List Char)
  | [], cur => [cur.reverse]
  | c :: rest, cur =>
    if c = ',' then cur.reverse :: splitCommaAux rest []
    else splitCommaAux rest (c :: cur)

/-- `strings.Split s ","` (the only separator the source uses). -/
def goSplitComma (s : String) : List String := (splitCommaAux s.data []).map String.mk

/-! ## Go map modelled as an association list -/

/-- Assignment `m[k] = v` on a Go map: overwrite the entry if the key is
present, otherwise append a new entry. -/
def mapInsert {α : Type} (m : List (String × α)) (k : String) (v : α) : List (String × α) :=
  if m.any (fun kv => kv.1 == k) then
    m.map (fun kv => if kv.1 = k then (k, v) else kv)
  else m ++ [(k, v)]

/-! ## Struct reflection model -/

/-- Go field types that occur in mapped record structs. -/
inductive FieldTy where
  | tInt : FieldTy
  | tStr : FieldTy
  | tBool : FieldTy
deriving DecidableEq

/-- The Go zero value of a field type. -/
def zeroOf : FieldTy → PrimValue
  | .tInt => .vInt 0
  | .tStr => .vStr ""
  | .tBool => .vBool false

/-- Whether a dynamic value may be stored in a field of the given type by
`reflect.Value.Set`; `nil` (`vNull`) never may (`reflect.ValueOf(nil)` is
the invalid `Value`, and `Set` panics on it). -/
def tyMatches : PrimValue → FieldTy → Bool
  | .vInt _, .tInt => true
  | .vStr _, .tStr => true
  | .vBool _, .tBool => true
  | _, _ => false

/-- One struct field as seen through `reflect`: name, type, and whether
`CanSet` holds (false for unexported fields). -/
structure StructField where
  name : String
  ty : FieldTy
  canSet : Bool
deriving DecidableEq

/-- The reflective view of a record struct type: its fields in order. -/
abbrev StructTy := List StructField

/-- A record value: current field values, keyed by field name. -/
abbrev Entity := List (String × PrimValue)

/-- `reflect.New(T)`: a record with every field at its zero value. -/
def zeroEntity (st : StructTy) : Entity := st.map (fun sf => (sf.name, zeroOf sf.ty))

/-- Overwrite field `f` of a record with value `v` (`reflect.Value.Set`,
after the caller has established validity, settability and type match). -/
def entSet (e : Entity) (f : String) (v : PrimValue) : Entity :=
  e.map (fun kv => if kv.1 = f then (f, v) else kv)

/-- The zero value of field `f` in struct type `st`, if `f` exists. -/
def fieldZero (st : StructTy) (f : String) : Option PrimValue :=
  (st.find? (fun sf => sf.name == f)).map (fun sf => zeroOf sf.ty)

/-- `FieldByName(f).IsValid() && CanSet()`. -/
def fieldSettable (st : StructTy) (f : String) : Bool :=
  match st.find? (fun sf => sf.name == f) with
  | some sf => sf.canSet
  | none => false

/-! ## Metadata resolver (`parseTagsFromType`) -/

/-- Parsed `crud`-tag metadata of a record type (source `entityMetadata`). -/
structure entityMetadata where
  Label : String
  PKField : String
  PKProp : String
  Mappings : List (String × String)
deriving DecidableEq

/-- A struct field as input to tag parsing: its name and the value of
`field.Tag.Get("crud")` (empty string when the tag is absent). -/
structure RField where
  name : String
  crudTag : String
deriving DecidableEq

/-- The reflective type passed to `parseTagsFromType`: a pointer type, a
struct type with its fields, or any other (non-struct) type. -/
inductive RType where
  | ptr (elem : RType) : RType
  | strukt (name : String) (fields : List RField) : RType
  | basic (name : String) : RType
deriving DecidableEq

/-- `typ.Elem()` applied once when the kind is pointer (as the source does). -/
def derefOnce : RType → RType
  | .ptr t => t
  | t => t

/-- `typ.Name()`: a pointer type has the empty name in Go. -/
def RType.typeName : RType → String
  | .ptr _ => ""
  | .strukt n _ => n
  | .basic n => n

/-- The struct name and fields behind `typ`, after one pointer dereference;
`none` when the dereferenced kind is not a struct. -/
def structFieldsOf (typ : RType) : Option (String × List RField) :=
  match derefOnce typ with
  | .strukt n fields => some (n, fields)
  | _ => none

/-- The property name extracted from the comma-separated tag parts: the last
part carrying a `property:` directive wins, default is the empty string. -/
def parsePropName (parts : List String) : String :=
  parts.foldl (fun acc part => if goHasPre part "property:" then goTrimPre part "property:" else acc) ""

/-- Whether some tag part is exactly `pk`. -/
def parseIsPk (parts : List String) : Bool := parts.any (fun part => part == "pk")

/-- The field loop of `parseTagsFromType`, threading the metadata under
construction; ends with the missing-primary-key check. -/
def parseLoop : List RField → entityMetadata → Outcome entityMetadata
  | [], meta =>
    if meta.PKField == "" then
      .error (.other ("no primary key (\x27pk\x27) tag defined for struct " ++ meta.Label))
    else .ok meta
  | fld :: rest, meta =>
    if fld.crudTag == "" then parseLoop rest meta
    else
      let parts := goSplitComma fld.crudTag
      let propName := parsePropName parts
      if propName == "" then
        .error (.other ("field " ++ fld.name ++ " is missing \x27property\x27 tag component"))
      else
        let meta1 : entityMetadata :=
          if parseIsPk parts then
            { meta with PKField := fld.name, PKProp := propName,
                        Mappings := mapInsert meta.Mappings fld.name propName }
          else { meta with Mappings := mapInsert meta.Mappings fld.name propName }
        parseLoop rest meta1

/-- `parseTagsFromType`: dereference a pointer type once, require a struct,
then fold the tag parsing over the fields. -/
def parseTagsFromType (typ : RType) : Outcome entityMetadata :=
  let t := derefOnce typ
  match t with
  | .strukt nm fields =>
    parseLoop fields { Label := nm, PKField := "", PKProp := "", Mappings := [] }
  | t' => .error (.other ("type " ++ t'.typeName ++ " is not a struct"))

/-! ## Queries and the runner boundary -/

/-- The query data the repository hands to the `gocypher` builder; the
builder itself is an external collaborator, so only the clause contents the
repository chooses are recorded. -/
inductive CypherQuery where
  | matchReturnQ (label : String) (props : List (String × PrimValue)) : CypherQuery
  | matchCountQ (label : String) (props : List (String × PrimValue)) : CypherQuery
  | mergeSetQ (label : String) (mergeProps setProps : List (String × PrimValue)) : CypherQuery
deriving DecidableEq

/-- The `DBRunner.Run` boundary: a built query to a buffered result or an
error (the transport itself does not panic). -/
abbrev Runner := CypherQuery → Outcome EagerResult

/-! ## Node-to-struct mapping (`mapNodeToStruct`) -/

/-- The field loop of `mapNodeToStruct`: for every mapping entry, skip
invalid or unsettable fields, skip properties absent from the node's bag,
and otherwise `Set` the field (which panics on a type mismatch or `nil`). -/
def mapNodeLoop (st : StructTy) (nd : NodeVal) : List (String × String) → Entity → Outcome Entity
  | [], e => .ok e
  | (f, p) :: rest, e =>
    match st.find? (fun sf => sf.name == f) with
    | none => mapNodeLoop st nd rest e
    | some sf =>
      if sf.canSet then
        match nd.Props.lookup p with
        | none => mapNodeLoop st nd rest e
        | some pv =>
          if tyMatches pv sf.ty then mapNodeLoop st nd rest (entSet e f pv)
          else .panics
      else mapNodeLoop st nd rest e

/-- `mapNodeToStruct(node, entity, meta)`: populate the entity's fields from
the node's property bag according to the metadata mappings. -/
def mapNodeToStruct (st : StructTy) (nd : NodeVal) (e : Entity) (meta : entityMetadata) : Outcome Entity :=
  mapNodeLoop st nd meta.Mappings e

/-! ## Row hydration shared by `Find`, `FindOne`, `FindFirst` -/

/-- The first full node among a row's values (the code breaks out of its
scan at the first value that type-asserts to `neo4j.Node`). -/
def firstNode : List GoValue → Option NodeVal
  | [] => none
  | .node nd :: _ => some nd
  | _ :: rest => firstNode rest

/-- The first result-column name equal to the mapped property name or
ending in `"." ++ property` (dotted-alias projections such as `u.name`). -/
def findMatchingKey (keys : List String) (propName : String) : Option String :=
  keys.find? (fun key => key == propName || goHasSuf key ("." ++ propName))

/-- The property-by-property fallback loop of `Find`: for every mapped
field, look for a matching result column, and assign its value when it is
present and non-nil (`Set` panics on a dynamic type mismatch). -/
def fallbackLoop (st : StructTy) (rec : DbRecord) : List (String × String) → Entity → Outcome Entity
  | [], e => .ok e
  | (f, p) :: rest, e =>
    match findMatchingKey rec.Keys p with
    | none => fallbackLoop st rec rest e
    | some key =>
      match rec.get key with
      | none => fallbackLoop st rec rest e
      | some v =>
        match st.find? (fun sf => sf.name == f) with
        | none => fallbackLoop st rec rest e
        | some sf =>
          if sf.canSet then
            -- `if foundValue != nil { field.Set(reflect.ValueOf(foundValue)) }`
            if v = .prim .vNull then fallbackLoop st rec rest e
            else
              match v with
              | .prim pv =>
                if tyMatches pv sf.ty then fallbackLoop st rec rest (entSet e f pv)
                else .panics
              | _ => .panics
          else fallbackLoop st rec rest e

/-- Hydrate one result row into a fresh entity: map from the first full
node if one is present, otherwise reconcile property by property. -/
def hydrateRecord (st : StructTy) (meta : entityMetadata) (rec : DbRecord) : Outcome Entity :=
  match firstNode rec.Values with
  | some nd => mapNodeToStruct st nd (zeroEntity st) meta
  | none => fallbackLoop st rec meta.Mappings (zeroEntity st)

/-! ## Repository operations -/

/-- The record loop of `Find`: hydrate every row, aborting on the first
mapping error or panic. -/
def findLoop (st : StructTy) (meta : entityMetadata) : List DbRecord → Outcome (List Entity)
  | [] => .ok []
  | rec :: rest =>
    match hydrateRecord st meta rec with
    | .ok e =>
      match findLoop st meta rest with
      | .ok es => .ok (e :: es)
      | .error er => .error er
      | .panics => .panics
    | .error er => .error er
    | .panics => .panics

/-- `Find` on the buffered result of the caller-built query (query building
and execution are external; a runner-level `ErrNotFound` is converted to an
empty slice before this point). -/
def Find (st : StructTy) (meta : entityMetadata) (res : EagerResult) : Outcome (List Entity) :=
  findLoop st meta res.Records

/-- `FindOne` on the buffered result of the caller-built query: not-found
on zero rows, a consistency error on more than one, otherwise the hydration
of the single row. -/
def FindOne (st : StructTy) (meta : entityMetadata) (res : EagerResult) : Outcome Entity :=
  match res.Records with
  | [] => .error .notFound
  | [rec] => hydrateRecord st meta rec
  | recs => .error (.other ("expected 1 record but found " ++ toString recs.length))

/-- `FindFirst` on the buffered result of the caller-built query: not-found
on zero rows, otherwise the hydration of the first row, with no
more-than-one check. -/
def FindFirst (st : StructTy) (meta : entityMetadata) (res : EagerResult) : Outcome Entity :=
  match res.Records with
  | [] => .error .notFound
  | rec :: _ => hydrateRecord st meta rec

/-- The result processing of `FindByID`: length checks, extraction of the
`n` return value, node assertion, then node-to-struct mapping. -/
def findByIDResult (st : StructTy) (meta : entityMetadata) (res : EagerResult) : Outcome Entity :=
  match res.Records with
  | [] => .error .notFound
  | [rec] =>
    match rec.get "n" with
    | none => .error (.other "could not find return value \x27n\x27 in query result")
    | some (.node nd) => mapNodeToStruct st nd (zeroEntity st) meta
    | some _ => .error (.other "return value \x27n\x27 is not a node")
  | recs => .error (.other ("expected 1 record but found " ++ toString recs.length))

/-- `FindByID(id)`: match on the primary-key property, run, then process
the buffered result. -/
def FindByID (st : StructTy) (meta : entityMetadata) (id : PrimValue) (runner : Runner) : Outcome Entity :=
  match runner (.matchReturnQ meta.Label [(meta.PKProp, id)]) with
  | .ok res => findByIDResult st meta res
  | .error e => .error e
  | .panics => .panics

/-- The record loop shared by `FindAll` and `FindByProperty`: each row's
`n` value is type-asserted to a node without an `ok` check (a non-node or
missing value panics), then mapped onto a fresh entity. -/
def recordsToEntities (st : StructTy) (meta : entityMetadata) : List DbRecord → Outcome (List Entity)
  | [] => .ok []
  | rec :: rest =>
    match rec.get "n" with
    | some (.node nd) =>
      match mapNodeToStruct st nd (zeroEntity st) meta with
      | .ok e =>
        match recordsToEntities st meta rest with
        | .ok es => .ok (e :: es)
        | .error er => .error er
        | .panics => .panics
      | .error er => .error er
      | .panics => .panics
    | _ => .panics

/-- `FindAll`: match every node of the label, run, map the rows; a
runner-level `ErrNotFound` yields an empty slice. -/
def FindAll (st : StructTy) (meta : entityMetadata) (runner : Runner) : Outcome (List Entity) :=
  match runner (.matchReturnQ meta.Label []) with
  | .ok res => recordsToEntities st meta res.Records
  | .error e => if e = .notFound then .ok [] else .error e
  | .panics => .panics

/-- Whether `propName` is among the type's mapped property names (the
values of the `Mappings` map). -/
def isMappedProperty (meta : entityMetadata) (propName : String) : Bool :=
  meta.Mappings.any (fun fp => fp.2 == propName)

/-- `FindByProperty(name, value)`: fail fast with a validation error when
the name is not a mapped property, otherwise match on that property, run,
and map the rows (runner-level `ErrNotFound` yields an empty slice). -/
def FindByProperty (st : StructTy) (meta : entityMetadata) (propName : String) (propValue : PrimValue)
    (runner : Runner) : Outcome (List Entity) :=
  if isMappedProperty meta propName then
    match runner (.matchReturnQ meta.Label [(propName, propValue)]) with
    | .ok res => recordsToEntities st meta res.Records
    | .error e => if e = .notFound then .ok [] else .error e
    | .panics => .panics
  else
    .error (.other ("property \x27" ++ propName ++ "\x27 is not a mapped property for entity type " ++ meta.Label))

/-- The count extraction shared by `Count` and `CountByProperty`: zero rows
count as zero, a missing `count` column is an error, and the unchecked
`.(int64)` assertion panics on any non-integer value. -/
def countFromResult (res : EagerResult) : Outcome Int :=
  match res.Records with
  | [] => .ok 0
  | rec :: _ =>
    match rec.get "count" with
    | none => .error (.other "count value not found in query result")
    | some (.prim (.vInt n)) => .ok n
    | some _ => .panics

/-- `Count`: count every node of the label. -/
def Count (meta : entityMetadata) (runner : Runner) : Outcome Int :=
  match runner (.matchCountQ meta.Label []) with
  | .ok res => countFromResult res
  | .error e => .error e
  | .panics => .panics

/-- `CountByProperty(name, value)`: build and run the count query filtered
on the given property; the source performs no validation of the name (its
comment merely suggests adding the same validation as `FindByProperty`). -/
def CountByProperty (meta : entityMetadata) (propName : String) (propValue : PrimValue)
    (runner : Runner) : Outcome Int :=
  match runner (.matchCountQ meta.Label [(propName, propValue)]) with
  | .ok res => countFromResult res
  | .error e => .error e
  | .panics => .panics

/-! ## Save -/

/-- The merge pattern's property map of `Save`: the single entry binding
the primary-key property to the record's primary-key field value. -/
def saveMergeProps (meta : entityMetadata) (ent : String → PrimValue) : List (String × PrimValue) :=
  [(meta.PKProp, ent meta.PKField)]

/-- The SET-clause property map of `Save`: every mapped field other than
the primary-key field contributes `n.<property> = current field value`. -/
def saveSetProps (meta : entityMetadata) (ent : String → PrimValue) : List (String × PrimValue) :=
  meta.Mappings.foldl
    (fun acc fp => if fp.1 == meta.PKField then acc else mapInsert acc ("n." ++ fp.2) (ent fp.1)) []

/-- The single upsert query `Save` builds: `MERGE` on the primary key,
`SET` of every other mapped property, `RETURN n`. -/
def saveQuery (meta : entityMetadata) (ent : String → PrimValue) : CypherQuery :=
  .mergeSetQ meta.Label (saveMergeProps meta ent) (saveSetProps meta ent)

/-- `Save(entity)`: build the upsert query and run it, ignoring the result
records. -/
def Save (meta : entityMetadata) (ent : String → PrimValue) (runner : Runner) : Outcome Unit :=
  match runner (saveQuery meta ent) with
  | .ok _ => .ok ()
  | .error e => .error e
  | .panics => .panics

/-! ## FindGraph -/

/-- The serializable node shape of a graph projection (`models.GraphNode`). -/
structure GraphNode where
  ID : String
  Labels : List String
  Properties : List (String × PrimValue)
deriving DecidableEq

/-- The serializable edge shape of a graph projection (`models.Edge`). -/
structure GraphEdge where
  ID : String
  Source : String
  Target : String
  RelType : String
  Properties : List (String × PrimValue)
deriving DecidableEq

/-- The deduplicated graph projection (`models.GraphResult`). -/
structure GraphResult where
  Nodes : List GraphNode
  Edges : List GraphEdge
deriving DecidableEq

/-- The loop state of `FindGraph`: the graph under construction plus the
`seenNodeIDs` / `seenEdgeIDs` deduplication sets. -/
structure GraphAcc where
  graph : GraphResult
  seenNodeIDs : List String
  seenEdgeIDs : List String
deriving DecidableEq

/-- Process one row value: append a node or relationship to the output
under its element id unless that id was already seen; ignore scalars. -/
def addGraphValue (acc : GraphAcc) (v : GoValue) : GraphAcc :=
  match v with
  | .node nd =>
    if acc.seenNodeIDs.contains nd.ElementId then acc
    else
      { acc with
        graph := { acc.graph with
          Nodes := acc.graph.Nodes ++ [{ ID := nd.ElementId, Labels := nd.Labels, Properties := nd.Props }] }
        seenNodeIDs := acc.seenNodeIDs ++ [nd.ElementId] }
  | .rel r =>
    if acc.seenEdgeIDs.contains r.ElementId then acc
    else
      { acc with
        graph := { acc.graph with
          Edges := acc.graph.Edges ++ [{ ID := r.ElementId, Source := r.StartElementId,
                                         Target := r.EndElementId, RelType := r.RelType,
                                         Properties := r.Props }] }
        seenEdgeIDs := acc.seenEdgeIDs ++ [r.ElementId] }
  | .prim _ => acc

/-- Process one row: walk its values in order. -/
def addGraphRecord (acc : GraphAcc) (rec : DbRecord) : GraphAcc :=
  rec.Values.foldl addGraphValue acc

/-- The empty loop state. -/
def emptyGraphAcc : GraphAcc := { graph := { Nodes := [], Edges := [] }, seenNodeIDs := [], seenEdgeIDs := [] }

/-- `FindGraph` on the buffered result of the caller-built query: zero rows
yield the not-found sentinel, otherwise every row value is folded into the
deduplicated graph. -/
def FindGraph (res : EagerResult) : Outcome GraphResult :=
  if res.Records.isEmpty then .error .notFound
  else .ok (res.Records.foldl addGraphRecord emptyGraphAcc).graph

/-! ## Specification predicates for the graph fold -/

/-- Loop invariant of `FindGraph`: the seen-id sets list exactly the ids of
the output nodes/edges, and those id lists are duplicate-free. -/
def GInv (acc : GraphAcc) : Prop :=
  (∀ s, s ∈ acc.seenNodeIDs ↔ s ∈ acc.graph.Nodes.map GraphNode.ID) ∧
  (acc.graph.Nodes.map GraphNode.ID).Nodup ∧
  (∀ s, s ∈ acc.seenEdgeIDs ↔ s ∈ acc.graph.Edges.map GraphEdge.ID) ∧
  (acc.graph.Edges.map GraphEdge.ID).Nodup

/-- A row value is covered by the accumulated graph: if it is a node or a
relationship, its element id occurs among the output ids. -/
def coversVal (acc : GraphAcc) (v : GoValue) : Prop :=
  (∀ nd, v = .node nd → nd.ElementId ∈ acc.graph.Nodes.map GraphNode.ID) ∧
  (∀ r, v = .rel r → r.ElementId ∈ acc.graph.Edges.map GraphEdge.ID)

/-! ## Concrete fixtures used by witnesses and counterexamples -/

/-- A concrete record struct type: `User { UserID string; Name string; Age int }`. -/
def stU : StructTy :=
  [{ name := "UserID", ty := .tStr, canSet := true },
   { name := "Name", ty := .tStr, canSet := true },
   { name := "Age", ty := .tInt, canSet := true }]

/-- Metadata of `stU` as `parseTagsFromType` would produce it. -/
def metaU : entityMetadata :=
  { Label := "User", PKField := "UserID", PKProp := "userId",
    Mappings := [("UserID", "userId"), ("Name", "name"), ("Age", "age")] }

/-- A node carrying `userId` and `name` but no `age` property. -/
def ndU : NodeVal :=
  { ElementId := "4:abc:1", Labels := ["User"],
    Props := [("userId", .vStr "u1"), ("name", .vStr "Alice")] }

/-- A `RETURN n` result row containing the full node `ndU`. -/
def recU : DbRecord := { Keys := ["n"], Values := [.node ndU] }

/-- A dotted-alias projection row: `RETURN u.name` with no full node. -/
def recProj : DbRecord := { Keys := ["u.name"], Values := [.prim (.vStr "Bob")] }

/-- A two-row result set (for more-than-one-row checks). -/
def resTwo : EagerResult := { Records := [recU, recU] }

/-- A one-row result whose `n` value is a scalar, not a node. -/
def resPrimN : EagerResult := { Records := [{ Keys := ["n"], Values := [.prim (.vInt 1)] }] }

/-- A one-row count result whose `count` value is a string: the unchecked
`.(int64)` assertion panics on it. -/
def resBadCount : EagerResult :=
  { Records := [{ Keys := ["count"], Values := [.prim (.vStr "x")] }] }

/-- A well-typed count result with value 5. -/
def resCount5 : EagerResult :=
  { Records := [{ Keys := ["count"], Values := [.prim (.vInt 5)] }] }

/-- A node whose `age` property is a string, mismatching the `Age` int field. -/
def ndBad : NodeVal :=
  { ElementId := "4:abc:9", Labels := ["User"], Props := [("age", .vStr "old")] }

/-- The current field values of a concrete `User` record. -/
def entU : String → PrimValue :=
  fun f => if f = "UserID" then .vStr "u1" else if f = "Name" then .vStr "Alice" else .vInt 7

/-- A second node sharing rows with `ndU` in graph projections. -/
def ndV : NodeVal :=
  { ElementId := "4:abc:2", Labels := ["Post"], Props := [("title", .vStr "p")] }

/-- A relationship from `ndU` to `ndV`. -/
def relUV : RelVal :=
  { ElementId := "5:abc:7", StartElementId := "4:abc:1", EndElementId := "4:abc:2",
    RelType := "WROTE", Props := [] }

/-- A result set that repeats the same node and relationship in two rows. -/
def resDup : EagerResult :=
  { Records := [{ Keys := ["u", "r", "p"], Values := [.node ndU, .rel relUV, .node ndV] },
                { Keys := ["u", "r", "p"], Values := [.node ndU, .rel relUV, .node ndV] }] }

/-- A struct type with two fields tagged `pk` (metadata resolution accepts it). -/
def twoPkType : RType :=
  .strukt "Account" [{ name := "A", crudTag := "pk,property:a" },
                     { name := "B", crudTag := "pk,property:b" }]

/-! ## Helper lemmas: entity field access -/

theorem beq_false_of_ne {a b : String} (h : a ≠ b) : (a == b) = false :=
  beq_eq_false_iff_ne.mpr h

theorem lookup_cons_eq {β : Type} (k : String) (w : β) (l : List (String × β)) :
    List.lookup k ((k, w) :: l) = some w := by
  simp [List.lookup]

theorem lookup_cons_ne {β : Type} (f k : String) (w : β) (l : List (String × β))
    (h : f ≠ k) : List.lookup f ((k, w) :: l) = List.lookup f l := by
  simp [List.lookup, beq_false_of_ne h]

theorem lookup_entSet_self (e : Entity) (f : String) (v : PrimValue)
    (h : (List.lookup f e).isSome) : List.lookup f (entSet e f v) = some v := by
  induction e with
  | nil => simp [List.lookup] at h
  | cons kv rest ih =>
    obtain ⟨k, w⟩ := kv
    by_cases hk : k = f
    · subst hk
      simp only [entSet, List.map_cons, if_pos rfl]
      exact lookup_cons_eq k v _
    · have hfk : f ≠ k := fun hh => hk hh.symm
      rw [lookup_cons_ne f k w rest hfk] at h
      simp only [entSet, List.map_cons, if_neg hk]
      rw [lookup_cons_ne f k w _ hfk]
      exact ih h

theorem lookup_entSet_ne (e : Entity) (f g : String) (v : PrimValue)
    (h : g ≠ f) : List.lookup g (entSet e f v) = List.lookup g e := by
  induction e with
  | nil => simp [entSet]
  | cons kv rest ih =>
    obtain ⟨k, w⟩ := kv
    by_cases hk : k = f
    · subst hk
      have hset : entSet ((k, w) :: rest) k v = (k, v) :: entSet rest k v := by simp [entSet]
      rw [hset, lookup_cons_ne g k v _ h, lookup_cons_ne g k w _ h]
      exact ih
    · simp only [entSet, List.map_cons, if_neg hk]
      by_cases hkg : g = k
      · subst hkg
        rw [lookup_cons_eq, lookup_cons_eq]
      · rw [lookup_cons_ne g k w _ hkg, lookup_cons_ne g k w _ hkg]
        exact ih

theorem lookup_entSet_isSome (e : Entity) (f g : String) (v : PrimValue) :
    (List.lookup g (entSet e f v)).isSome = (List.lookup g e).isSome := by
  by_cases h : g = f
  · subst h
    induction e with
    | nil => simp [entSet]
    | cons kv rest ih =>
      obtain ⟨k, w⟩ := kv
      by_cases hk : k = g
      · subst hk
        have hset : entSet ((k, w) :: rest) k v = (k, v) :: entSet rest k v := by simp [entSet]
        rw [hset, lookup_cons_eq, lookup_cons_eq]
        rfl
      · have hgk : g ≠ k := fun hh => hk hh.symm
        simp only [entSet, List.map_cons, if_neg hk]
        rw [lookup_cons_ne g k w _ hgk, lookup_cons_ne g k w _ hgk]
        exact ih
  · rw [lookup_entSet_ne e f g v h]

theorem lookup_zeroEntity (st : StructTy) (f : String) :
    List.lookup f (zeroEntity st) = fieldZero st f := by
  induction st with
  | nil => simp [zeroEntity, fieldZero]
  | cons sf rest ih =>
    by_cases hk : sf.name = f
    · simp only [zeroEntity, List.map_cons, fieldZero]
      rw [hk, lookup_cons_eq]
      simp [List.find?, hk]
    · have h1 : (sf.name == f) = false := beq_false_of_ne hk
      have hfk : f ≠ sf.name := fun hh => hk hh.symm
      simp only [zeroEntity, List.map_cons, fieldZero]
      rw [lookup_cons_ne f sf.name _ _ hfk]
      simp only [List.find?, h1]
      exact ih

theorem fieldZero_isSome_of_settable (st : StructTy) (f : String)
    (h : fieldSettable st f = true) : (fieldZero st f).isSome := by
  unfold fieldSettable at h
  unfold fieldZero
  cases hf : st.find? (fun sf => sf.name == f) with
  | none => rw [hf] at h; exact absurd h (by simp)
  | some sf => simp [hf]

/-! ## Helper lemmas: the node-mapping loop -/

theorem fieldSettable_iff (st : StructTy) (f : String) :
    fieldSettable st f = true ↔
      ∃ sf, st.find? (fun sf => sf.name == f) = some sf ∧ sf.canSet = true := by
  unfold fieldSettable
  cases hf : st.find? (fun sf => sf.name == f) with
  | none => simp
  | some sf => simp

theorem mapNodeLoop_lookup_notmem (st : StructTy) (nd : NodeVal) (ms : List (String × String)) :
    ∀ (e e' : Entity) (f : String),
    (∀ fp ∈ ms, fp.1 ≠ f) → mapNodeLoop st nd ms e = .ok e' →
    List.lookup f e' = List.lookup f e := by
  induction ms with
  | nil =>
    intro e e' f _ hok
    simp only [mapNodeLoop] at hok
    obtain rfl : e = e' := by injection hok
    rfl
  | cons fp rest ih =>
    obtain ⟨f0, p0⟩ := fp
    intro e e' f h hok
    have hne : f ≠ f0 := fun hh => h (f0, p0) (List.mem_cons_self _ _) hh.symm
    have hrest : ∀ fp ∈ rest, fp.1 ≠ f := fun fp hfp => h fp (List.mem_cons_of_mem _ hfp)
    simp only [mapNodeLoop] at hok
    split at hok
    · exact ih e e' f hrest hok
    · split at hok
      · split at hok
        · exact ih e e' f hrest hok
        · split at hok
          · rw [ih _ e' f hrest hok, lookup_entSet_ne e f0 f _ hne]
          · cases hok
      · exact ih e e' f hrest hok

theorem mapNodeLoop_lookup_isSome (st : StructTy) (nd : NodeVal) (ms : List (String × String)) :
    ∀ (e e' : Entity) (f : String),
    mapNodeLoop st nd ms e = .ok e' →
    (List.lookup f e').isSome = (List.lookup f e).isSome := by
  induction ms with
  | nil =>
    intro e e' f hok
    simp only [mapNodeLoop] at hok
    obtain rfl : e = e' := by injection hok
    rfl
  | cons fp rest ih =>
    obtain ⟨f0, p0⟩ := fp
    intro e e' f hok
    simp only [mapNodeLoop] at hok
    split at hok
    · exact ih e e' f hok
    · split at hok
      · split at hok
        · exact ih e e' f hok
        · split at hok
          · rw [ih _ e' f hok, lookup_entSet_isSome]
          · cases hok
      · exact ih e e' f hok

theorem mapNodeLoop_lookup_mem (st : StructTy) (nd : NodeVal) (ms : List (String × String)) :
    ∀ (e e' : Entity) (f p : String),
    (ms.map Prod.fst).Nodup → (f, p) ∈ ms → fieldSettable st f = true →
    (List.lookup f e).isSome → mapNodeLoop st nd ms e = .ok e' →
    (∀ pv, nd.Props.lookup p = some pv → List.lookup f e' = some pv) ∧
    (nd.Props.lookup p = none → List.lookup f e' = List.lookup f e) := by
  induction ms with
  | nil => intro e e' f p _ hmem; cases hmem
  | cons fp rest ih =>
    obtain ⟨f0, p0⟩ := fp
    intro e e' f p hnodup hmem hset hkey hok
    by_cases hf0 : f0 = f
    · subst hf0
      -- the head entry is the one for field `f0`; Nodup rules out another
      have hp : p = p0 := by
        rcases List.mem_cons.mp hmem with hh | hh
        · exact (Prod.ext_iff.mp hh).2
        · exfalso
          have : f0 ∈ rest.map Prod.fst := List.mem_map.mpr ⟨(f0, p), hh, rfl⟩
          exact (List.nodup_cons.mp hnodup).1 this
      subst hp
      obtain ⟨sf, hfind, hcan⟩ := (fieldSettable_iff st f0).mp hset
      have hrest : ∀ fp ∈ rest, fp.1 ≠ f0 := by
        intro fp hfp hne
        exact (List.nodup_cons.mp hnodup).1 (List.mem_map.mpr ⟨fp, hfp, hne⟩)
      simp only [mapNodeLoop, hfind, hcan, if_true] at hok
      cases hprop : nd.Props.lookup p with
      | none =>
        simp only [hprop] at hok
        exact ⟨fun pv hpv => Option.noConfusion hpv,
               fun _ => mapNodeLoop_lookup_notmem st nd rest e e' f0 hrest hok⟩
      | some pv =>
        simp only [hprop] at hok
        refine ⟨fun pv' hpv' => ?_, fun hnone => Option.noConfusion hnone⟩
        · injection hpv' with hpv''
          subst hpv''
          split at hok
          · rw [mapNodeLoop_lookup_notmem st nd rest _ e' f0 hrest hok]
            exact lookup_entSet_self e f0 _ hkey
          · exact Outcome.noConfusion hok
    · -- the head entry concerns a different field: one step, then induction
      have hmem' : (f, p) ∈ rest := by
        rcases List.mem_cons.mp hmem with hh | hh
        · exact absurd (Prod.ext_iff.mp hh).1.symm hf0
        · exact hh
      have hnodup' : (rest.map Prod.fst).Nodup := (List.nodup_cons.mp hnodup).2
      have hne : f ≠ f0 := fun hh => hf0 hh.symm
      simp only [mapNodeLoop] at hok
      split at hok
      · exact ih e e' f p hnodup' hmem' hset hkey hok
      · split at hok
        · split at hok
          · exact ih e e' f p hnodup' hmem' hset hkey hok
          · split at hok
            · rename_i pv heq hty
              have hkey' : (List.lookup f (entSet e f0 pv)).isSome := by
                rw [lookup_entSet_isSome]; exact hkey
              have hres := ih _ e' f p hnodup' hmem' hset hkey' hok
              rw [lookup_entSet_ne e f0 f pv hne] at hres
              exact hres
            · exact Outcome.noConfusion hok
        · exact ih e e' f p hnodup' hmem' hset hkey hok

/-! ## Helper lemmas: the fallback-hydration loop -/

theorem fallbackLoop_step (st : StructTy) (rec : DbRecord) (f0 p0 : String)
    (rest : List (String × String)) (e e' : Entity)
    (hok : fallbackLoop st rec ((f0, p0) :: rest) e = .ok e') :
    ∃ e1, (e1 = e ∨ ∃ pv, e1 = entSet e f0 pv) ∧ fallbackLoop st rec rest e1 = .ok e' := by
  simp only [fallbackLoop] at hok
  split at hok
  · exact ⟨e, Or.inl rfl, hok⟩
  · split at hok
    · exact ⟨e, Or.inl rfl, hok⟩
    · split at hok
      · exact ⟨e, Or.inl rfl, hok⟩
      · split at hok
        · split at hok
          · exact ⟨e, Or.inl rfl, hok⟩
          · split at hok
            · split at hok
              · exact ⟨entSet e f0 _, Or.inr ⟨_, rfl⟩, hok⟩
              · exact Outcome.noConfusion hok
            · exact Outcome.noConfusion hok
        · exact ⟨e, Or.inl rfl, hok⟩

theorem fallbackLoop_lookup_notmem (st : StructTy) (rec : DbRecord) (ms : List (String × String)) :
    ∀ (e e' : Entity) (f : String),
    (∀ fp ∈ ms, fp.1 ≠ f) → fallbackLoop st rec ms e = .ok e' →
    List.lookup f e' = List.lookup f e := by
  induction ms with
  | nil =>
    intro e e' f _ hok
    simp only [fallbackLoop] at hok
    obtain rfl : e = e' := by injection hok
    rfl
  | cons fp rest ih =>
    obtain ⟨f0, p0⟩ := fp
    intro e e' f h hok
    have hne : f ≠ f0 := fun hh => h (f0, p0) (List.mem_cons_self _ _) hh.symm
    have hrest : ∀ fp ∈ rest, fp.1 ≠ f := fun fp hfp => h fp (List.mem_cons_of_mem _ hfp)
    obtain ⟨e1, he1, hok'⟩ := fallbackLoop_step st rec f0 p0 rest e e' hok
    have hstep : List.lookup f e1 = List.lookup f e := by
      rcases he1 with rfl | ⟨pv, rfl⟩
      · rfl
      · exact lookup_entSet_ne e f0 f pv hne
    rw [ih e1 e' f hrest hok', hstep]

theorem fallbackLoop_lookup_isSome (st : StructTy) (rec : DbRecord) (ms : List (String × String)) :
    ∀ (e e' : Entity) (f : String),
    fallbackLoop st rec ms e = .ok e' →
    (List.lookup f e').isSome = (List.lookup f e).isSome := by
  induction ms with
  | nil =>
    intro e e' f hok
    simp only [fallbackLoop] at hok
    obtain rfl : e = e' := by injection hok
    rfl
  | cons fp rest ih =>
    obtain ⟨f0, p0⟩ := fp
    intro e e' f hok
    obtain ⟨e1, he1, hok'⟩ := fallbackLoop_step st rec f0 p0 rest e e' hok
    have hstep : (List.lookup f e1).isSome = (List.lookup f e).isSome := by
      rcases he1 with rfl | ⟨pv, rfl⟩
      · rfl
      · exact lookup_entSet_isSome e f0 f pv
    rw [ih e1 e' f hok', hstep]

theorem fallbackLoop_lookup_mem (st : StructTy) (rec : DbRecord) (ms : List (String × String)) :
    ∀ (e e' : Entity) (f p : String),
    (ms.map Prod.fst).Nodup → (f, p) ∈ ms → fieldSettable st f = true →
    (List.lookup f e).isSome → fallbackLoop st rec ms e = .ok e' →
    (∀ key, findMatchingKey rec.Keys p = some key →
       (∀ pv, rec.get key = some (.prim pv) → pv ≠ .vNull → List.lookup f e' = some pv) ∧
       (rec.get key = some (.prim .vNull) → List.lookup f e' = List.lookup f e) ∧
       (rec.get key = none → List.lookup f e' = List.lookup f e)) ∧
    (findMatchingKey rec.Keys p = none → List.lookup f e' = List.lookup f e) := by
  induction ms with
  | nil => intro e e' f p _ hmem; cases hmem
  | cons fp rest ih =>
    obtain ⟨f0, p0⟩ := fp
    intro e e' f p hnodup hmem hset hkey hok
    by_cases hf0 : f0 = f
    · subst hf0
      have hp : p = p0 := by
        rcases List.mem_cons.mp hmem with hh | hh
        · exact (Prod.ext_iff.mp hh).2
        · exfalso
          have : f0 ∈ rest.map Prod.fst := List.mem_map.mpr ⟨(f0, p), hh, rfl⟩
          exact (List.nodup_cons.mp hnodup).1 this
      subst hp
      obtain ⟨sf, hfind, hcan⟩ := (fieldSettable_iff st f0).mp hset
      have hrest : ∀ fp ∈ rest, fp.1 ≠ f0 := by
        intro fp hfp hne
        exact (List.nodup_cons.mp hnodup).1 (List.mem_map.mpr ⟨fp, hfp, hne⟩)
      simp only [fallbackLoop] at hok
      cases hkq : findMatchingKey rec.Keys p with
      | none =>
        simp only [hkq] at hok
        exact ⟨fun key hkey' => Option.noConfusion hkey',
               fun _ => fallbackLoop_lookup_notmem st rec rest e e' f0 hrest hok⟩
      | some key =>
        simp only [hkq] at hok
        refine ⟨fun key' hkey' => ?_, fun hnone => Option.noConfusion hnone⟩
        have hkk : key = key' := by injection hkey'
        subst hkk
        cases hv : rec.get key with
        | none =>
          simp only [hv] at hok
          exact ⟨fun pv hpv _ => Option.noConfusion hpv,
                 fun hnull => Option.noConfusion hnull,
                 fun _ => fallbackLoop_lookup_notmem st rec rest e e' f0 hrest hok⟩
        | some v =>
          simp only [hv, hfind, hcan, if_true] at hok
          by_cases hvn : v = GoValue.prim PrimValue.vNull
          · rw [if_pos hvn] at hok
            subst hvn
            refine ⟨fun pv hpv hnn => ?_,
                    fun _ => fallbackLoop_lookup_notmem st rec rest e e' f0 hrest hok,
                    fun hg => Option.noConfusion hg⟩
            injection hpv with h2
            injection h2 with h3
            exact absurd h3.symm hnn
          · rw [if_neg hvn] at hok
            cases v with
            | prim pv =>
              have hok' : (if tyMatches pv sf.ty = true then
                  fallbackLoop st rec rest (entSet e f0 pv) else Outcome.panics) = Outcome.ok e' := hok
              refine ⟨fun pv' hpv' hnn => ?_, fun hnull => ?_,
                      fun hg => Option.noConfusion hg⟩
              · injection hpv' with h2
                injection h2 with h3
                subst h3
                split at hok'
                · rw [fallbackLoop_lookup_notmem st rec rest _ e' f0 hrest hok']
                  exact lookup_entSet_self e f0 _ hkey
                · exact Outcome.noConfusion hok'
              · injection hnull with h2
                injection h2 with h3
                exact absurd (congrArg GoValue.prim h3) hvn
            | node nd2 =>
              exact Outcome.noConfusion (hok : (Outcome.panics : Outcome Entity) = Outcome.ok e')
            | rel r2 =>
              exact Outcome.noConfusion (hok : (Outcome.panics : Outcome Entity) = Outcome.ok e')
    · have hmem' : (f, p) ∈ rest := by
        rcases List.mem_cons.mp hmem with hh | hh
        · exact absurd (Prod.ext_iff.mp hh).1.symm hf0
        · exact hh
      have hnodup' : (rest.map Prod.fst).Nodup := (List.nodup_cons.mp hnodup).2
      have hne : f ≠ f0 := fun hh => hf0 hh.symm
      obtain ⟨e1, he1, hok'⟩ := fallbackLoop_step st rec f0 p0 rest e e' hok
      have hstep : List.lookup f e1 = List.lookup f e := by
        rcases he1 with rfl | ⟨pv, rfl⟩
        · rfl
        · exact lookup_entSet_ne e f0 f pv hne
      have hkey' : (List.lookup f e1).isSome := by
        rw [hstep]; exact hkey
      have hres := ih e1 e' f p hnodup' hmem' hset hkey' hok'
      rw [hstep] at hres
      exact hres

/-! ## Helper lemmas: the find loop -/

theorem findLoop_forall2 (st : StructTy) (meta : entityMetadata) :
    ∀ (recs : List DbRecord) (es : List Entity),
    findLoop st meta recs = .ok es →
    List.Forall₂ (fun rec e => hydrateRecord st meta rec = .ok e) recs es := by
  intro recs
  induction recs with
  | nil =>
    intro es hok
    simp only [findLoop] at hok
    obtain rfl : ([] : List Entity) = es := by injection hok
    exact List.Forall₂.nil
  | cons rec rest ih =>
    intro es hok
    simp only [findLoop] at hok
    cases h1 : hydrateRecord st meta rec with
    | ok e =>
      simp only [h1] at hok
      cases h2 : findLoop st meta rest with
      | ok es2 =>
        simp only [h2] at hok
        obtain rfl : e :: es2 = es := by injection hok
        exact List.Forall₂.cons h1 (ih es2 h2)
      | error er => simp only [h2] at hok; exact Outcome.noConfusion hok
      | panics => simp only [h2] at hok; exact Outcome.noConfusion hok
    | error er => simp only [h1] at hok; exact Outcome.noConfusion hok
    | panics => simp only [h1] at hok; exact Outcome.noConfusion hok

/-- Claim C1: for every result row hydrated by `Find` (and by `FindOne` and
`FindFirst`, which hydrate rows with the same `hydrateRecord` function): if
some value in the row is a full graph node (the first one, which is the one
the code selects), every mapped settable field of the produced record is
populated from that node's property bag, and a property absent from the bag
leaves the field at its zero value; if no value in the row is a node, then
for every mapped field the row's column names are searched for an exact
match on the mapped property name or a name ending in `.<property>`, the
discovered value is assigned when present and non-null, and otherwise the
field stays at its zero value. -/
theorem find_row_hydration :
    (∀ (st : StructTy) (meta : entityMetadata) (res : EagerResult) (es : List Entity),
       Find st meta res = .ok es →
       List.Forall₂ (fun rec e => hydrateRecord st meta rec = .ok e) res.Records es) ∧
    (∀ (st : StructTy) (meta : entityMetadata) (rec : DbRecord) (e : Entity),
       (meta.Mappings.map Prod.fst).Nodup →
       hydrateRecord st meta rec = .ok e →
       ∀ f p, (f, p) ∈ meta.Mappings → fieldSettable st f = true →
         (∀ nd, firstNode rec.Values = some nd →
            (∀ pv, nd.Props.lookup p = some pv → List.lookup f e = some pv) ∧
            (nd.Props.lookup p = none → List.lookup f e = fieldZero st f)) ∧
         (firstNode rec.Values = none →
            (∀ key, findMatchingKey rec.Keys p = some key →
               (∀ pv, rec.get key = some (.prim pv) → pv ≠ .vNull → List.lookup f e = some pv) ∧
               ((rec.get key = some (.prim .vNull) ∨ rec.get key = none) →
                  List.lookup f e = fieldZero st f)) ∧
            (findMatchingKey rec.Keys p = none → List.lookup f e = fieldZero st f))) := by
  constructor
  · intro st meta res es hok
    exact findLoop_forall2 st meta res.Records es hok
  · intro st meta rec e hnodup hok f p hmem hset
    have hkey : (List.lookup f (zeroEntity st)).isSome := by
      rw [lookup_zeroEntity]
      exact fieldZero_isSome_of_settable st f hset
    cases hfn : firstNode rec.Values with
    | some nd =>
      simp only [hydrateRecord, hfn] at hok
      have hmain := mapNodeLoop_lookup_mem st nd meta.Mappings (zeroEntity st) e f p
        hnodup hmem hset hkey hok
      refine ⟨fun nd' hnd' => ?_, fun hnone => Option.noConfusion hnone⟩
      have : nd = nd' := by injection hnd'
      subst this
      exact ⟨hmain.1, fun hp => by rw [hmain.2 hp, lookup_zeroEntity]⟩
    | none =>
      simp only [hydrateRecord, hfn] at hok
      have hmain := fallbackLoop_lookup_mem st rec meta.Mappings (zeroEntity st) e f p
        hnodup hmem hset hkey hok
      refine ⟨fun nd' hnd' => Option.noConfusion hnd', fun _ => ?_⟩
      refine ⟨fun key hkeyq => ?_, fun hnone => by rw [hmain.2 hnone, lookup_zeroEntity]⟩
      obtain ⟨h1, h2, h3⟩ := hmain.1 key hkeyq
      refine ⟨h1, fun hcase => ?_⟩
      rcases hcase with hnull | hmiss
      · rw [h2 hnull, lookup_zeroEntity]
      · rw [h3 hmiss, lookup_zeroEntity]

/-- Witness for C1 at a concrete node-bearing row: the `name` property is
copied and the absent `age` property leaves the `Age` field at zero. -/
theorem find_row_hydration_witness :
    List.lookup "Name" [("UserID", PrimValue.vStr "u1"), ("Name", PrimValue.vStr "Alice"),
      ("Age", PrimValue.vInt 0)] = some (PrimValue.vStr "Alice") ∧
    List.lookup "Age" [("UserID", PrimValue.vStr "u1"), ("Name", PrimValue.vStr "Alice"),
      ("Age", PrimValue.vInt 0)] = fieldZero stU "Age" := by
  have hmain := find_row_hydration.2 stU metaU recU
    [("UserID", .vStr "u1"), ("Name", .vStr "Alice"), ("Age", .vInt 0)]
    (by decide) (by decide)
  constructor
  · exact ((hmain "Name" "name" (by decide) (by decide)).1 ndU (by decide)).1
      (.vStr "Alice") (by decide)
  · exact ((hmain "Age" "age" (by decide) (by decide)).1 ndU (by decide)).2 (by decide)

/-- Claim C2: for every `FindByID` call whose query executes successfully,
zero result rows yield the not-found sentinel, more than one row yields a
consistency error distinct from not-found (never the first match silently),
and exactly one row containing a node under alias `n` yields the record
mapped from that node. -/
theorem findByID_result_policy :
    ∀ (st : StructTy) (meta : entityMetadata) (id : PrimValue) (runner : Runner) (res : EagerResult),
    runner (.matchReturnQ meta.Label [(meta.PKProp, id)]) = .ok res →
    (res.Records = [] → FindByID st meta id runner = .error .notFound) ∧
    (res.Records.length > 1 →
       FindByID st meta id runner =
         .error (.other ("expected 1 record but found " ++ toString res.Records.length)) ∧
       ∀ msg, GoErr.other msg ≠ GoErr.notFound) ∧
    (∀ rec nd, res.Records = [rec] → rec.get "n" = some (.node nd) →
       FindByID st meta id runner = mapNodeToStruct st nd (zeroEntity st) meta) := by
  intro st meta id runner res hrun
  refine ⟨fun hnil => ?_, fun hlen => ?_, fun rec nd hone hn => ?_⟩
  · simp only [FindByID, hrun, findByIDResult, hnil]
  · cases hrecs : res.Records with
    | nil => rw [hrecs] at hlen; simp at hlen
    | cons r1 tail =>
      cases tail with
      | nil => rw [hrecs] at hlen; simp at hlen
      | cons r2 rs =>
        refine ⟨?_, fun msg => by simp⟩
        simp only [FindByID, hrun, findByIDResult, hrecs]
  · simp only [FindByID, hrun, findByIDResult, hone, hn]

/-- Witness for C2: one row whose `n` value is the node `ndU` makes
`FindByID` return exactly the node-to-struct mapping of `ndU`. -/
theorem findByID_result_policy_witness :
    FindByID stU metaU (.vStr "u1") (fun _ => .ok { Records := [recU] }) =
      mapNodeToStruct stU ndU (zeroEntity stU) metaU :=
  (findByID_result_policy stU metaU (.vStr "u1") (fun _ => .ok { Records := [recU] })
    { Records := [recU] } rfl).2.2 recU ndU rfl (by decide)

/-- Claim C3: `FindOne` returns the not-found sentinel on zero result rows
and a consistency error on more than one row, while `FindFirst` returns the
not-found sentinel on zero rows and otherwise hydrates and returns the
first row with no more-than-one check. -/
theorem findOne_findFirst_policy :
    ∀ (st : StructTy) (meta : entityMetadata) (res : EagerResult),
    (res.Records = [] →
       FindOne st meta res = .error .notFound ∧ FindFirst st meta res = .error .notFound) ∧
    (res.Records.length > 1 →
       FindOne st meta res =
         .error (.other ("expected 1 record but found " ++ toString res.Records.length)) ∧
       ∀ msg, GoErr.other msg ≠ GoErr.notFound) ∧
    (∀ rec rest, res.Records = rec :: rest →
       FindFirst st meta res = hydrateRecord st meta rec) := by
  intro st meta res
  refine ⟨fun hnil => ?_, fun hlen => ?_, fun rec rest hcons => ?_⟩
  · constructor
    · simp only [FindOne, hnil]
    · simp only [FindFirst, hnil]
  · cases hrecs : res.Records with
    | nil => rw [hrecs] at hlen; simp at hlen
    | cons r1 tail =>
      cases tail with
      | nil => rw [hrecs] at hlen; simp at hlen
      | cons r2 rs =>
        refine ⟨?_, fun msg => by simp⟩
        simp only [FindOne, hrecs]
  · simp only [FindFirst, hcons]

/-- Witness for C3: a two-row result makes `FindOne` report the
consistency error, while `FindFirst` hydrates the first row. -/
theorem findOne_findFirst_policy_witness :
    FindOne stU metaU resTwo = .error (.other "expected 1 record but found 2") ∧
    FindFirst stU metaU resTwo = hydrateRecord stU metaU recU := by
  constructor
  · exact (((findOne_findFirst_policy stU metaU resTwo).2.1 (by decide)).1).trans (by decide)
  · exact (findOne_findFirst_policy stU metaU resTwo).2.2 recU [recU] rfl

/-- Claim C5: when the executed query returns zero rows, `FindAll` succeeds
with an empty sequence and no error, whereas `FindGraph` fails with the
not-found sentinel instead of returning an empty graph. -/
theorem zero_rows_policy :
    ∀ (st : StructTy) (meta : entityMetadata) (runner : Runner),
    (runner (.matchReturnQ meta.Label []) = .ok { Records := [] } →
       FindAll st meta runner = .ok []) ∧
    FindGraph { Records := [] } = .error .notFound := by
  intro st meta runner
  constructor
  · intro hrun
    simp only [FindAll, hrun, recordsToEntities]
  · rfl

/-- Witness for C5: a runner returning an empty buffered result makes
`FindAll` return the empty list. -/
theorem zero_rows_policy_witness :
    FindAll stU metaU (fun _ => .ok { Records := [] }) = .ok [] :=
  (zero_rows_policy stU metaU (fun _ => .ok { Records := [] })).1 rfl

/-! ## Helper lemmas: the graph fold -/

theorem contains_iff_mem (l : List String) (s : String) : l.contains s = true ↔ s ∈ l := by
  exact List.elem_iff

theorem addGraphValue_prim (acc : GraphAcc) (p : PrimValue) :
    addGraphValue acc (.prim p) = acc := rfl

theorem addGraphValue_node_seen (acc : GraphAcc) (nd : NodeVal)
    (h : nd.ElementId ∈ acc.seenNodeIDs) : addGraphValue acc (.node nd) = acc := by
  have hc : acc.seenNodeIDs.contains nd.ElementId = true := (contains_iff_mem _ _).mpr h
  simp [addGraphValue, hc, h]

theorem addGraphValue_node_new (acc : GraphAcc) (nd : NodeVal)
    (h : nd.ElementId ∉ acc.seenNodeIDs) :
    addGraphValue acc (.node nd) =
      ⟨⟨acc.graph.Nodes ++ [⟨nd.ElementId, nd.Labels, nd.Props⟩], acc.graph.Edges⟩,
       acc.seenNodeIDs ++ [nd.ElementId], acc.seenEdgeIDs⟩ := by
  have hc : acc.seenNodeIDs.contains nd.ElementId = false := by
    cases hcc : acc.seenNodeIDs.contains nd.ElementId with
    | true => exact absurd ((contains_iff_mem _ _).mp hcc) h
    | false => rfl
  simp [addGraphValue, hc, h]

theorem addGraphValue_rel_seen (acc : GraphAcc) (r : RelVal)
    (h : r.ElementId ∈ acc.seenEdgeIDs) : addGraphValue acc (.rel r) = acc := by
  have hc : acc.seenEdgeIDs.contains r.ElementId = true := (contains_iff_mem _ _).mpr h
  simp [addGraphValue, hc, h]

theorem addGraphValue_rel_new (acc : GraphAcc) (r : RelVal)
    (h : r.ElementId ∉ acc.seenEdgeIDs) :
    addGraphValue acc (.rel r) =
      ⟨⟨acc.graph.Nodes,
        acc.graph.Edges ++ [⟨r.ElementId, r.StartElementId, r.EndElementId, r.RelType, r.Props⟩]⟩,
       acc.seenNodeIDs, acc.seenEdgeIDs ++ [r.ElementId]⟩ := by
  have hc : acc.seenEdgeIDs.contains r.ElementId = false := by
    cases hcc : acc.seenEdgeIDs.contains r.ElementId with
    | true => exact absurd ((contains_iff_mem _ _).mp hcc) h
    | false => rfl
  simp [addGraphValue, hc, h]

theorem GInv_empty : GInv emptyGraphAcc := by
  refine ⟨fun s => ?_, by simp [emptyGraphAcc], fun s => ?_, by simp [emptyGraphAcc]⟩ <;>
    simp [emptyGraphAcc]

theorem addGraphValue_inv (acc : GraphAcc) (v : GoValue) (h : GInv acc) :
    GInv (addGraphValue acc v) := by
  obtain ⟨hn, hnd, he, hed⟩ := h
  cases v with
  | prim p => rw [addGraphValue_prim]; exact ⟨hn, hnd, he, hed⟩
  | node nd =>
    by_cases hm : nd.ElementId ∈ acc.seenNodeIDs
    · rw [addGraphValue_node_seen acc nd hm]; exact ⟨hn, hnd, he, hed⟩
    · rw [addGraphValue_node_new acc nd hm]
      have hnotmem : nd.ElementId ∉ acc.graph.Nodes.map GraphNode.ID :=
        fun hmem => hm ((hn _).mpr hmem)
      refine ⟨fun s => ?_, ?_, he, hed⟩
      · simp only [List.map_append, List.mem_append, List.map_cons, List.map_nil,
          List.mem_cons, List.not_mem_nil, or_false]
        exact or_congr (hn s) Iff.rfl
      · simp only [List.map_append, List.map_cons, List.map_nil]
        rw [List.nodup_append]
        refine ⟨hnd, List.nodup_singleton _, ?_⟩
        intro a ha hb
        simp only [List.mem_cons, List.not_mem_nil, or_false] at hb
        subst hb
        exact hnotmem ha
  | rel r =>
    by_cases hm : r.ElementId ∈ acc.seenEdgeIDs
    · rw [addGraphValue_rel_seen acc r hm]; exact ⟨hn, hnd, he, hed⟩
    · rw [addGraphValue_rel_new acc r hm]
      have hnotmem : r.ElementId ∉ acc.graph.Edges.map GraphEdge.ID :=
        fun hmem => hm ((he _).mpr hmem)
      refine ⟨hn, hnd, fun s => ?_, ?_⟩
      · simp only [List.map_append, List.mem_append, List.map_cons, List.map_nil,
          List.mem_cons, List.not_mem_nil, or_false]
        exact or_congr (he s) Iff.rfl
      · simp only [List.map_append, List.map_cons, List.map_nil]
        rw [List.nodup_append]
        refine ⟨hed, List.nodup_singleton _, ?_⟩
        intro a ha hb
        simp only [List.mem_cons, List.not_mem_nil, or_false] at hb
        subst hb
        exact hnotmem ha

theorem addGraphValue_nodes_mono (acc : GraphAcc) (v : GoValue) (x : String)
    (h : x ∈ acc.graph.Nodes.map GraphNode.ID) :
    x ∈ (addGraphValue acc v).graph.Nodes.map GraphNode.ID := by
  cases v with
  | prim p => rw [addGraphValue_prim]; exact h
  | node nd =>
    by_cases hm : nd.ElementId ∈ acc.seenNodeIDs
    · rw [addGraphValue_node_seen acc nd hm]; exact h
    · rw [addGraphValue_node_new acc nd hm]
      simp only [List.map_append, List.mem_append]
      exact Or.inl h
  | rel r =>
    by_cases hm : r.ElementId ∈ acc.seenEdgeIDs
    · rw [addGraphValue_rel_seen acc r hm]; exact h
    · rw [addGraphValue_rel_new acc r hm]; exact h

theorem addGraphValue_edges_mono (acc : GraphAcc) (v : GoValue) (x : String)
    (h : x ∈ acc.graph.Edges.map GraphEdge.ID) :
    x ∈ (addGraphValue acc v).graph.Edges.map GraphEdge.ID := by
  cases v with
  | prim p => rw [addGraphValue_prim]; exact h
  | node nd =>
    by_cases hm : nd.ElementId ∈ acc.seenNodeIDs
    · rw [addGraphValue_node_seen acc nd hm]; exact h
    · rw [addGraphValue_node_new acc nd hm]; exact h
  | rel r =>
    by_cases hm : r.ElementId ∈ acc.seenEdgeIDs
    · rw [addGraphValue_rel_seen acc r hm]; exact h
    · rw [addGraphValue_rel_new acc r hm]
      simp only [List.map_append, List.mem_append]
      exact Or.inl h

theorem addGraphValue_covers (acc : GraphAcc) (v : GoValue) (h : GInv acc) :
    coversVal (addGraphValue acc v) v := by
  constructor
  · rintro nd rfl
    by_cases hm : nd.ElementId ∈ acc.seenNodeIDs
    · rw [addGraphValue_node_seen acc nd hm]
      exact (h.1 _).mp hm
    · rw [addGraphValue_node_new acc nd hm]
      simp only [List.map_append, List.mem_append, List.map_cons, List.map_nil, List.mem_cons,
        List.not_mem_nil, or_false]
      exact Or.inr trivial
  · rintro r rfl
    by_cases hm : r.ElementId ∈ acc.seenEdgeIDs
    · rw [addGraphValue_rel_seen acc r hm]
      exact (h.2.2.1 _).mp hm
    · rw [addGraphValue_rel_new acc r hm]
      simp only [List.map_append, List.mem_append, List.map_cons, List.map_nil, List.mem_cons,
        List.not_mem_nil, or_false]
      exact Or.inr trivial

theorem foldValues_inv (vs : List GoValue) :
    ∀ acc, GInv acc → GInv (vs.foldl addGraphValue acc) := by
  induction vs with
  | nil => intro acc h; exact h
  | cons v vs' ih => intro acc h; exact ih _ (addGraphValue_inv acc v h)

theorem foldValues_nodes_mono (vs : List GoValue) :
    ∀ acc x, x ∈ acc.graph.Nodes.map GraphNode.ID →
    x ∈ (vs.foldl addGraphValue acc).graph.Nodes.map GraphNode.ID := by
  induction vs with
  | nil => intro acc x h; exact h
  | cons v vs' ih => intro acc x h; exact ih _ x (addGraphValue_nodes_mono acc v x h)

theorem foldValues_edges_mono (vs : List GoValue) :
    ∀ acc x, x ∈ acc.graph.Edges.map GraphEdge.ID →
    x ∈ (vs.foldl addGraphValue acc).graph.Edges.map GraphEdge.ID := by
  induction vs with
  | nil => intro acc x h; exact h
  | cons v vs' ih => intro acc x h; exact ih _ x (addGraphValue_edges_mono acc v x h)

theorem foldValues_covers (vs : List GoValue) :
    ∀ acc, GInv acc → ∀ v ∈ vs, coversVal (vs.foldl addGraphValue acc) v := by
  induction vs with
  | nil => intro acc _ v hv; cases hv
  | cons v0 vs' ih =>
    intro acc h v hv
    rcases List.mem_cons.mp hv with rfl | hv'
    · have hcov := addGraphValue_covers acc v h
      exact ⟨fun nd hnd => foldValues_nodes_mono vs' _ _ (hcov.1 nd hnd),
             fun r hr => foldValues_edges_mono vs' _ _ (hcov.2 r hr)⟩
    · exact ih _ (addGraphValue_inv acc v0 h) v hv'

theorem foldRecords_inv (recs : List DbRecord) :
    ∀ acc, GInv acc → GInv (recs.foldl addGraphRecord acc) := by
  induction recs with
  | nil => intro acc h; exact h
  | cons rec recs' ih =>
    intro acc h
    exact ih _ (foldValues_inv rec.Values acc h)

theorem foldRecords_nodes_mono (recs : List DbRecord) :
    ∀ acc x, x ∈ acc.graph.Nodes.map GraphNode.ID →
    x ∈ (recs.foldl addGraphRecord acc).graph.Nodes.map GraphNode.ID := by
  induction recs with
  | nil => intro acc x h; exact h
  | cons rec recs' ih =>
    intro acc x h
    exact ih _ x (foldValues_nodes_mono rec.Values acc x h)

theorem foldRecords_edges_mono (recs : List DbRecord) :
    ∀ acc x, x ∈ acc.graph.Edges.map GraphEdge.ID →
    x ∈ (recs.foldl addGraphRecord acc).graph.Edges.map GraphEdge.ID := by
  induction recs with
  | nil => intro acc x h; exact h
  | cons rec recs' ih =>
    intro acc x h
    exact ih _ x (foldValues_edges_mono rec.Values acc x h)

theorem foldRecords_covers (recs : List DbRecord) :
    ∀ acc, GInv acc → ∀ rec ∈ recs, ∀ v ∈ rec.Values,
    coversVal (recs.foldl addGraphRecord acc) v := by
  induction recs with
  | nil => intro acc _ rec hr; cases hr
  | cons rec0 recs' ih =>
    intro acc h rec hr v hv
    rcases List.mem_cons.mp hr with rfl | hr'
    · have hcov := foldValues_covers rec.Values acc h v hv
      exact ⟨fun nd hnd => foldRecords_nodes_mono recs' _ _ (hcov.1 nd hnd),
             fun r hrr => foldRecords_edges_mono recs' _ _ (hcov.2 r hrr)⟩
    · exact ih _ (foldValues_inv rec0.Values acc h) rec hr' v hv

/-- Claim C4: for every result set, `FindGraph` returns a graph whose node
list contains each node identifier at most once and whose edge list
contains each edge identifier at most once, even when the same node or
relationship value occurs in several result rows; and every node or
relationship value occurring in some row appears in the output under its
identifier. -/
theorem findGraph_dedup_complete (res : EagerResult) (g : GraphResult)
    (hok : FindGraph res = .ok g) :
    (g.Nodes.map GraphNode.ID).Nodup ∧ (g.Edges.map GraphEdge.ID).Nodup ∧
    ∀ rec ∈ res.Records, ∀ v ∈ rec.Values,
      (∀ nd, v = .node nd → ∃ gn ∈ g.Nodes, gn.ID = nd.ElementId) ∧
      (∀ r, v = .rel r → ∃ ge ∈ g.Edges, ge.ID = r.ElementId) := by
  have hg : g = (res.Records.foldl addGraphRecord emptyGraphAcc).graph := by
    by_cases hemp : res.Records.isEmpty = true
    · simp only [FindGraph, hemp, if_true] at hok
      exact Outcome.noConfusion hok
    · simp only [FindGraph, hemp, Bool.false_eq_true, if_false] at hok
      injection hok with h
      exact h.symm
  subst hg
  have hinv := foldRecords_inv res.Records emptyGraphAcc GInv_empty
  refine ⟨hinv.2.1, hinv.2.2.2, ?_⟩
  intro rec hr v hv
  have hcov := foldRecords_covers res.Records emptyGraphAcc GInv_empty rec hr v hv
  constructor
  · intro nd hnd
    obtain ⟨gn, hgn, hid⟩ := List.mem_map.mp (hcov.1 nd hnd)
    exact ⟨gn, hgn, hid⟩
  · intro r hrr
    obtain ⟨ge, hge, hid⟩ := List.mem_map.mp (hcov.2 r hrr)
    exact ⟨ge, hge, hid⟩

/-- Witness for C4: a result set repeating the same node and relationship
in two rows still yields duplicate-free node and edge id lists. -/
theorem findGraph_dedup_complete_witness :
    ∃ g, FindGraph resDup = .ok g ∧
      (g.Nodes.map GraphNode.ID).Nodup ∧ (g.Edges.map GraphEdge.ID).Nodup ∧
      (∃ gn ∈ g.Nodes, gn.ID = ndU.ElementId) := by
  have hok : FindGraph resDup =
      .ok (resDup.Records.foldl addGraphRecord emptyGraphAcc).graph := by decide
  have hmain := findGraph_dedup_complete resDup _ hok
  refine ⟨_, hok, hmain.1, hmain.2.1, ?_⟩
  exact (hmain.2.2 (resDup.Records.head (by decide)) (by decide) (.node ndU) (by decide)).1 ndU rfl

/-! ## Helper lemmas: tag parsing -/

theorem parseLoop_not_panics : ∀ (fields : List RField) (meta : entityMetadata),
    parseLoop fields meta ≠ .panics := by
  intro fields
  induction fields with
  | nil =>
    intro meta h
    simp only [parseLoop] at h
    split at h
    · exact Outcome.noConfusion h
    · exact Outcome.noConfusion h
  | cons fld rest ih =>
    intro meta h
    simp only [parseLoop] at h
    split at h
    · exact ih meta h
    · split at h
      · exact Outcome.noConfusion h
      · exact ih _ h

theorem parseLoop_label : ∀ (fields : List RField) (meta : entityMetadata) (m : entityMetadata),
    parseLoop fields meta = .ok m → m.Label = meta.Label := by
  intro fields
  induction fields with
  | nil =>
    intro meta m hok
    simp only [parseLoop] at hok
    split at hok
    · exact Outcome.noConfusion hok
    · obtain rfl : meta = m := by injection hok
      rfl
  | cons fld rest ih =>
    intro meta m hok
    simp only [parseLoop] at hok
    split at hok
    · exact ih meta m hok
    · split at hok
      · exact Outcome.noConfusion hok
      · split at hok
        · have h2 := ih _ m hok
          exact h2
        · have h2 := ih _ m hok
          exact h2

theorem parseLoop_prop_nonempty :
    ∀ (fields : List RField) (meta : entityMetadata) (m : entityMetadata),
    parseLoop fields meta = .ok m →
    ∀ fld ∈ fields, fld.crudTag ≠ "" → parsePropName (goSplitComma fld.crudTag) ≠ "" := by
  intro fields
  induction fields with
  | nil => intro meta m _ fld hfld; cases hfld
  | cons fld0 rest ih =>
    intro meta m hok fld hfld htag
    simp only [parseLoop] at hok
    rcases List.mem_cons.mp hfld with rfl | hfld'
    · have htag' : (fld.crudTag == "") = false := beq_false_of_ne htag
      simp only [htag', Bool.false_eq_true, if_false] at hok
      split at hok
      · exact Outcome.noConfusion hok
      · rename_i hprop
        intro hempty
        rw [hempty] at hprop
        simp at hprop
    · split at hok
      · exact ih meta m hok fld hfld' htag
      · split at hok
        · exact Outcome.noConfusion hok
        · split at hok
          · exact ih _ m hok fld hfld' htag
          · exact ih _ m hok fld hfld' htag

theorem mapInsert_any_self {α : Type} (m : List (String × α)) (k : String) (v : α) :
    (mapInsert m k v).any (fun kv => kv.1 == k) = true := by
  unfold mapInsert
  split
  · rename_i hany
    rw [List.any_eq_true] at hany ⊢
    obtain ⟨kv, hkv, hk⟩ := hany
    refine ⟨(k, v), List.mem_map.mpr ⟨kv, hkv, ?_⟩, by simp⟩
    have : kv.1 = k := by simpa using hk
    simp [this]
  · rw [List.any_eq_true]
    exact ⟨(k, v), List.mem_append.mpr (Or.inr (List.mem_singleton.mpr rfl)), by simp⟩

theorem mapInsert_any_mono {α : Type} (m : List (String × α)) (k k' : String) (v : α)
    (h : m.any (fun kv => kv.1 == k') = true) :
    (mapInsert m k v).any (fun kv => kv.1 == k') = true := by
  unfold mapInsert
  split
  · rw [List.any_eq_true] at h ⊢
    obtain ⟨kv, hkv, hk⟩ := h
    have hkeq : kv.1 = k' := by simpa using hk
    by_cases hkk : kv.1 = k
    · have hk'eq : k = k' := by rw [← hkk, hkeq]
      refine ⟨(k, v), List.mem_map.mpr ⟨kv, hkv, by simp [hkk]⟩, by simp [hk'eq]⟩
    · refine ⟨kv, List.mem_map.mpr ⟨kv, hkv, by simp [hkk]⟩, hk⟩
  · rw [List.any_eq_true] at h ⊢
    obtain ⟨kv, hkv, hk⟩ := h
    exact ⟨kv, List.mem_append.mpr (Or.inl hkv), hk⟩

theorem parseLoop_preserves_key :
    ∀ (fields : List RField) (meta : entityMetadata) (m : entityMetadata) (k : String),
    parseLoop fields meta = .ok m →
    meta.Mappings.any (fun kv => kv.1 == k) = true →
    m.Mappings.any (fun kv => kv.1 == k) = true := by
  intro fields
  induction fields with
  | nil =>
    intro meta m k hok hany
    simp only [parseLoop] at hok
    split at hok
    · exact Outcome.noConfusion hok
    · obtain rfl : meta = m := by injection hok
      exact hany
  | cons fld rest ih =>
    intro meta m k hok hany
    simp only [parseLoop] at hok
    split at hok
    · exact ih meta m k hok hany
    · split at hok
      · exact Outcome.noConfusion hok
      · split at hok
        · exact ih _ m k hok (mapInsert_any_mono _ _ _ _ hany)
        · exact ih _ m k hok (mapInsert_any_mono _ _ _ _ hany)

theorem parseLoop_covers :
    ∀ (fields : List RField) (meta : entityMetadata) (m : entityMetadata),
    parseLoop fields meta = .ok m →
    ∀ fld ∈ fields, fld.crudTag ≠ "" →
    m.Mappings.any (fun kv => kv.1 == fld.name) = true := by
  intro fields
  induction fields with
  | nil => intro meta m _ fld hfld; cases hfld
  | cons fld0 rest ih =>
    intro meta m hok fld hfld htag
    simp only [parseLoop] at hok
    rcases List.mem_cons.mp hfld with rfl | hfld'
    · have htag' : (fld.crudTag == "") = false := beq_false_of_ne htag
      simp only [htag', Bool.false_eq_true, if_false] at hok
      split at hok
      · exact Outcome.noConfusion hok
      · split at hok
        · exact parseLoop_preserves_key rest _ m fld.name hok (mapInsert_any_self _ _ _)
        · exact parseLoop_preserves_key rest _ m fld.name hok (mapInsert_any_self _ _ _)
    · split at hok
      · exact ih meta m hok fld hfld' htag
      · split at hok
        · exact Outcome.noConfusion hok
        · split at hok
          · exact ih _ m hok fld hfld' htag
          · exact ih _ m hok fld hfld' htag

theorem parseLoop_pk_invariant :
    ∀ (fields : List RField) (meta m : entityMetadata),
    parseLoop fields meta = .ok m →
    (meta.PKField ≠ "" → meta.Mappings.any (fun kv => kv.1 == meta.PKField) = true) →
    m.PKField ≠ "" ∧ m.Mappings.any (fun kv => kv.1 == m.PKField) = true := by
  intro fields
  induction fields with
  | nil =>
    intro meta m hok hinv
    simp only [parseLoop] at hok
    split at hok
    · exact Outcome.noConfusion hok
    · rename_i hne
      obtain rfl : meta = m := by injection hok
      have hne' : meta.PKField ≠ "" := by simpa using hne
      exact ⟨hne', hinv hne'⟩
  | cons fld rest ih =>
    intro meta m hok hinv
    simp only [parseLoop] at hok
    split at hok
    · exact ih meta m hok hinv
    · split at hok
      · exact Outcome.noConfusion hok
      · split at hok
        · refine ih _ m hok ?_
          intro _
          exact mapInsert_any_self _ _ _
        · refine ih _ m hok ?_
          intro hne
          exact mapInsert_any_mono _ _ _ _ (hinv hne)

theorem parseLoop_pk_exists :
    ∀ (fields : List RField) (meta m : entityMetadata),
    parseLoop fields meta = .ok m → meta.PKField = "" →
    ∃ fld ∈ fields, fld.crudTag ≠ "" ∧ parseIsPk (goSplitComma fld.crudTag) = true := by
  intro fields
  induction fields with
  | nil =>
    intro meta m hok hpk
    simp only [parseLoop] at hok
    split at hok
    · exact Outcome.noConfusion hok
    · rename_i hne
      exact absurd (by simp [hpk]) hne
  | cons fld rest ih =>
    intro meta m hok hpk
    simp only [parseLoop] at hok
    split at hok
    · obtain ⟨fld', hf', ht', hp'⟩ := ih meta m hok hpk
      exact ⟨fld', List.mem_cons_of_mem _ hf', ht', hp'⟩
    · rename_i htag
      split at hok
      · exact Outcome.noConfusion hok
      · split at hok
        · rename_i hispk
          refine ⟨fld, List.mem_cons_self _ _, fun hh => htag (by simp [hh]), hispk⟩
        · obtain ⟨fld', hf', ht', hp'⟩ := ih _ m hok hpk
          exact ⟨fld', List.mem_cons_of_mem _ hf', ht', hp'⟩

theorem parseLoop_ok_of :
    ∀ (fields : List RField) (meta : entityMetadata),
    (∀ fld ∈ fields, fld.name ≠ "") →
    (∀ fld ∈ fields, fld.crudTag ≠ "" → parsePropName (goSplitComma fld.crudTag) ≠ "") →
    (meta.PKField ≠ "" ∨
       ∃ fld ∈ fields, fld.crudTag ≠ "" ∧ parseIsPk (goSplitComma fld.crudTag) = true) →
    ∃ m, parseLoop fields meta = .ok m := by
  intro fields
  induction fields with
  | nil =>
    intro meta _ _ hpk
    rcases hpk with hpk | ⟨fld, hf, _⟩
    · have hne : (meta.PKField == "") = false := beq_false_of_ne hpk
      exact ⟨meta, by simp only [parseLoop, hne, Bool.false_eq_true, if_false]⟩
    · cases hf
  | cons fld rest ih =>
    intro meta hnames hprops hpk
    have hnames' : ∀ f ∈ rest, f.name ≠ "" :=
      fun f hf => hnames f (List.mem_cons_of_mem _ hf)
    have hprops' : ∀ f ∈ rest, f.crudTag ≠ "" → parsePropName (goSplitComma f.crudTag) ≠ "" :=
      fun f hf => hprops f (List.mem_cons_of_mem _ hf)
    by_cases htag : fld.crudTag = ""
    · have htag' : (fld.crudTag == "") = true := by simp [htag]
      simp only [parseLoop, htag', if_true]
      refine ih meta hnames' hprops' ?_
      rcases hpk with hpk | ⟨fld', hf', ht', hp'⟩
      · exact Or.inl hpk
      · rcases List.mem_cons.mp hf' with rfl | hf''
        · exact absurd htag ht'
        · exact Or.inr ⟨fld', hf'', ht', hp'⟩
    · have htag' : (fld.crudTag == "") = false := beq_false_of_ne htag
      have hprop := hprops fld (List.mem_cons_self _ _) htag
      have hprop' : (parsePropName (goSplitComma fld.crudTag) == "") = false :=
        beq_false_of_ne hprop
      simp only [parseLoop, htag', Bool.false_eq_true, if_false, hprop']
      by_cases hispk : parseIsPk (goSplitComma fld.crudTag) = true
      · rw [if_pos hispk]
        refine ih _ hnames' hprops' (Or.inl ?_)
        exact hnames fld (List.mem_cons_self _ _)
      · rw [if_neg hispk]
        refine ih _ hnames' hprops' ?_
        rcases hpk with hpk | ⟨fld', hf', ht', hp'⟩
        · exact Or.inl hpk
        · rcases List.mem_cons.mp hf' with rfl | hf''
          · exact absurd hp' hispk
          · exact Or.inr ⟨fld', hf'', ht', hp'⟩

theorem structFieldsOf_strukt (typ : RType) (nm : String) (fields : List RField)
    (h : structFieldsOf typ = some (nm, fields)) : derefOnce typ = .strukt nm fields := by
  unfold structFieldsOf at h
  cases hd : derefOnce typ with
  | strukt n fs =>
    rw [hd] at h
    have h2 : (n, fs) = (nm, fields) := by injection h
    obtain ⟨rfl, rfl⟩ := Prod.ext_iff.mp h2
    rfl
  | ptr t =>
    rw [hd] at h
    exact Option.noConfusion h
  | basic n =>
    rw [hd] at h
    exact Option.noConfusion h

theorem parseTagsFromType_eq_loop (typ : RType) (nm : String) (fields : List RField)
    (h : structFieldsOf typ = some (nm, fields)) :
    parseTagsFromType typ =
      parseLoop fields { Label := nm, PKField := "", PKProp := "", Mappings := [] } := by
  have hd := structFieldsOf_strukt typ nm fields h
  simp only [parseTagsFromType, hd]

/-- Counterexample for C6: the claim demands failure whenever a type does
not have exactly one primary-key field, but a struct with two `pk`-tagged
fields is accepted, the later field silently winning the primary-key slot. -/
theorem parse_two_pk_accepted :
    parseTagsFromType twoPkType = .ok ⟨"Account", "B", "b", [("A", "a"), ("B", "b")]⟩ := by
  decide

/-- Claim C6 (amended): metadata resolution fails with an error whenever
the type is not a struct (after one pointer dereference), whenever a
tagged field lacks a target property name, and whenever no field at all is
marked primary key; a type with two or more `pk` fields is accepted, the
last one winning.  Otherwise (struct type, all tagged fields carrying a
property name, at least one `pk` field, field names non-empty as Go
guarantees) it succeeds, with the label defaulting to the type's own name
and the mapping covering every tagged field including the primary key. -/
theorem parse_metadata_amended :
    (∀ typ, structFieldsOf typ = none → ∃ e, parseTagsFromType typ = .error e) ∧
    (∀ typ nm fields, structFieldsOf typ = some (nm, fields) →
       (∃ fld ∈ fields, fld.crudTag ≠ "" ∧ parsePropName (goSplitComma fld.crudTag) = "") →
       ∃ e, parseTagsFromType typ = .error e) ∧
    (∀ typ nm fields, structFieldsOf typ = some (nm, fields) →
       (∀ fld ∈ fields, fld.crudTag ≠ "" → parseIsPk (goSplitComma fld.crudTag) = false) →
       ∃ e, parseTagsFromType typ = .error e) ∧
    (∀ typ nm fields, structFieldsOf typ = some (nm, fields) →
       (∀ fld ∈ fields, fld.name ≠ "") →
       (∀ fld ∈ fields, fld.crudTag ≠ "" → parsePropName (goSplitComma fld.crudTag) ≠ "") →
       (∃ fld ∈ fields, fld.crudTag ≠ "" ∧ parseIsPk (goSplitComma fld.crudTag) = true) →
       ∃ m, parseTagsFromType typ = .ok m ∧ m.Label = nm ∧ m.PKField ≠ "" ∧
         m.Mappings.any (fun kv => kv.1 == m.PKField) = true ∧
         (∀ fld ∈ fields, fld.crudTag ≠ "" →
            m.Mappings.any (fun kv => kv.1 == fld.name) = true)) := by
  refine ⟨?_, ?_, ?_, ?_⟩
  · intro typ hnone
    cases hd : derefOnce typ with
    | strukt n fs =>
      exfalso
      unfold structFieldsOf at hnone
      rw [hd] at hnone
      exact Option.noConfusion hnone
    | ptr t =>
      exact ⟨.other ("type " ++ (RType.ptr t).typeName ++ " is not a struct"),
             by simp only [parseTagsFromType, hd]⟩
    | basic n =>
      exact ⟨.other ("type " ++ (RType.basic n).typeName ++ " is not a struct"),
             by simp only [parseTagsFromType, hd]⟩
  · rintro typ nm fields hsf ⟨fld, hf, htag, hempty⟩
    rw [parseTagsFromType_eq_loop typ nm fields hsf]
    cases hpl : parseLoop fields ⟨nm, "", "", []⟩ with
    | ok m => exact absurd hempty (parseLoop_prop_nonempty fields _ m hpl fld hf htag)
    | error e => exact ⟨e, rfl⟩
    | panics => exact absurd hpl (parseLoop_not_panics fields _)
  · intro typ nm fields hsf hnopk
    rw [parseTagsFromType_eq_loop typ nm fields hsf]
    cases hpl : parseLoop fields ⟨nm, "", "", []⟩ with
    | ok m =>
      obtain ⟨fld, hf, htag, hispk⟩ := parseLoop_pk_exists fields _ m hpl rfl
      rw [hnopk fld hf htag] at hispk
      exact Bool.noConfusion hispk
    | error e => exact ⟨e, rfl⟩
    | panics => exact absurd hpl (parseLoop_not_panics fields _)
  · intro typ nm fields hsf hnames hprops hpk
    rw [parseTagsFromType_eq_loop typ nm fields hsf]
    obtain ⟨m, hm⟩ := parseLoop_ok_of fields ⟨nm, "", "", []⟩ hnames hprops (Or.inr hpk)
    have hpkinv := parseLoop_pk_invariant fields _ m hm (fun h => absurd rfl h)
    exact ⟨m, hm, parseLoop_label fields _ m hm, hpkinv.1, hpkinv.2,
           parseLoop_covers fields _ m hm⟩

/-- Witness for the amended C6 at the two-`pk` struct: resolution succeeds,
the label is the struct name, and the mapping covers every tagged field
including the (last-wins) primary key. -/
theorem parse_metadata_amended_witness :
    ∃ m, parseTagsFromType twoPkType = .ok m ∧ m.Label = "Account" ∧ m.PKField ≠ "" ∧
      m.Mappings.any (fun kv => kv.1 == m.PKField) = true ∧
      (∀ fld ∈ ([⟨"A", "pk,property:a"⟩, ⟨"B", "pk,property:b"⟩] : List RField),
         fld.crudTag ≠ "" → m.Mappings.any (fun kv => kv.1 == fld.name) = true) :=
  parse_metadata_amended.2.2.2 twoPkType "Account"
    ([⟨"A", "pk,property:a"⟩, ⟨"B", "pk,property:b"⟩] : List RField)
    (by decide) (by decide) (by decide)
    ⟨⟨"A", "pk,property:a"⟩, by decide, by decide, by decide⟩

/-! ## Helper lemmas: absent properties never panic the node mapper -/

theorem mapNodeLoop_absent (st : StructTy) (nd : NodeVal) :
    ∀ (ms : List (String × String)) (e : Entity),
    (∀ fp ∈ ms, nd.Props.lookup fp.2 = none) →
    mapNodeLoop st nd ms e = .ok e := by
  intro ms
  induction ms with
  | nil => intro e _; rfl
  | cons fp rest ih =>
    obtain ⟨f, p⟩ := fp
    intro e h
    have hhead : nd.Props.lookup p = none := h (f, p) (List.mem_cons_self _ _)
    have hrest : ∀ fp ∈ rest, nd.Props.lookup fp.2 = none :=
      fun fp hfp => h fp (List.mem_cons_of_mem _ hfp)
    simp only [mapNodeLoop, hhead]
    split
    · exact ih e hrest
    · split
      · exact ih e hrest
      · exact ih e hrest

/-- Counterexample for C7: the claim says no operation panics on a
data-shape mismatch it can detect, but `Count` panics when the `count`
value it receives is a string rather than an `int64` (the unchecked
`.(int64)` type assertion). -/
theorem count_mismatch_panics : Count metaU (fun _ => .ok resBadCount) = .panics := rfl

/-- Claim C7 (amended): missing fields and absent properties degrade to
zero-valued fields without panicking, and the mismatches `FindByID`
explicitly checks (missing or non-node `n` value) are returned as typed
errors; but `FindAll` panics when a row's `n` value is not a node,
`Count`/`CountByProperty` panic when the `count` value is not an integer,
and the node-to-struct mapper panics when a property value's dynamic type
differs from the target field's type. -/
theorem mismatch_behavior_amended :
    (∀ (st : StructTy) (nd : NodeVal) (meta : entityMetadata) (e0 : Entity),
       (∀ fp ∈ meta.Mappings, nd.Props.lookup fp.2 = none) →
       mapNodeToStruct st nd e0 meta = .ok e0) ∧
    (∀ (st : StructTy) (meta : entityMetadata) (rec : DbRecord),
       (rec.get "n" = none →
          findByIDResult st meta ⟨[rec]⟩ =
            .error (.other "could not find return value \x27n\x27 in query result")) ∧
       (∀ p, rec.get "n" = some (.prim p) →
          findByIDResult st meta ⟨[rec]⟩ =
            .error (.other "return value \x27n\x27 is not a node"))) ∧
    Count metaU (fun _ => .ok resBadCount) = .panics ∧
    FindAll stU metaU (fun _ => .ok resPrimN) = .panics ∧
    mapNodeToStruct stU ndBad (zeroEntity stU) metaU = .panics := by
  refine ⟨?_, ?_, rfl, rfl, by decide⟩
  · intro st nd meta e0 h
    exact mapNodeLoop_absent st nd meta.Mappings e0 h
  · intro st meta rec
    constructor
    · intro h
      simp only [findByIDResult, h]
    · intro p h
      simp only [findByIDResult, h]

/-- Witness for the amended C7: a node carrying none of the mapped
properties maps to the unchanged zero record, and a row without an `n`
column makes `FindByID` return its typed error. -/
theorem mismatch_behavior_amended_witness :
    mapNodeToStruct stU ndV (zeroEntity stU) metaU = .ok (zeroEntity stU) ∧
    findByIDResult stU metaU ⟨[⟨["x"], []⟩]⟩ =
      .error (.other "could not find return value \x27n\x27 in query result") :=
  ⟨mismatch_behavior_amended.1 stU ndV metaU (zeroEntity stU) (by decide),
   (mismatch_behavior_amended.2.1 stU metaU ⟨["x"], []⟩).1 (by decide)⟩

/-- Claim C8: for every property name that is not among the type's mapped
property names, `FindByProperty` returns a validation error without ever
invoking the query runner (the result is the same error for every runner);
for a mapped name it builds and executes a match query filtering on that
property. -/
theorem findByProperty_validation :
    ∀ (st : StructTy) (meta : entityMetadata) (propName : String) (propValue : PrimValue),
    (isMappedProperty meta propName = false →
       ∀ runner, FindByProperty st meta propName propValue runner =
         .error (.other ("property \x27" ++ propName ++
           "\x27 is not a mapped property for entity type " ++ meta.Label))) ∧
    (isMappedProperty meta propName = true →
       ∀ runner, FindByProperty st meta propName propValue runner =
         match runner (.matchReturnQ meta.Label [(propName, propValue)]) with
         | .ok res => recordsToEntities st meta res.Records
         | .error e => if e = .notFound then .ok [] else .error e
         | .panics => .panics) := by
  intro st meta propName propValue
  constructor
  · intro h runner
    simp only [FindByProperty, h, Bool.false_eq_true, if_false]
  · intro h runner
    simp only [FindByProperty, h, if_true]

/-- Witness for C8: the unmapped name `email` makes `FindByProperty` fail
validation even though the runner would have returned rows. -/
theorem findByProperty_validation_witness :
    FindByProperty stU metaU "email" (.vStr "e") (fun _ => .ok resTwo) =
      .error (.other "property \x27email\x27 is not a mapped property for entity type User") :=
  ((findByProperty_validation stU metaU "email" (.vStr "e")).1 (by decide)
    (fun _ => .ok resTwo)).trans (by decide)

/-- Claim C10: `CountByProperty` performs no validation of the property
name: for every name, including names that are not among the type's mapped
properties, it builds and executes the count query against the runner
rather than failing fast with a validation error — the runner's answer to
the count query determines the result, and a well-formed count row yields
that count. -/
theorem countByProperty_no_validation :
    ∀ (meta : entityMetadata) (propName : String) (propValue : PrimValue) (runner : Runner),
    isMappedProperty meta propName = false →
    (CountByProperty meta propName propValue runner =
       match runner (.matchCountQ meta.Label [(propName, propValue)]) with
       | .ok res => countFromResult res
       | .error e => .error e
       | .panics => .panics) ∧
    (∀ (n : Int), runner (.matchCountQ meta.Label [(propName, propValue)]) =
        .ok ⟨[⟨["count"], [.prim (.vInt n)]⟩]⟩ →
      CountByProperty meta propName propValue runner = .ok n) := by
  intro meta propName propValue runner _
  refine ⟨rfl, fun n hrun => ?_⟩
  simp only [CountByProperty, hrun]
  rfl

/-- Witness for C10: the unmapped name `email` still executes the count
query and returns the runner's count. -/
theorem countByProperty_no_validation_witness :
    CountByProperty metaU "email" (.vStr "e") (fun _ => .ok resCount5) = .ok 5 :=
  (countByProperty_no_validation metaU "email" (.vStr "e") (fun _ => .ok resCount5)
    (by decide)).2 5 rfl

/-! ## Helper lemmas: the Save property maps -/

theorem strAppend_left_cancel {s t u : String} (h : s ++ t = s ++ u) : t = u := by
  have hd : (s ++ t).data = (s ++ u).data := by rw [h]
  simp only [String.data_append] at hd
  exact String.ext (List.append_cancel_left hd)

theorem nKey_injective : Function.Injective (fun p : String => "n." ++ p) :=
  fun _ _ h => strAppend_left_cancel h

theorem saveSetProps_foldl (pk : String) (ent : String → PrimValue) :
    ∀ (l : List (String × String)) (acc : List (String × PrimValue)),
    ((l.filter (fun fp => !(fp.1 == pk))).map (fun fp => "n." ++ fp.2)).Nodup →
    (∀ fp ∈ l, (fp.1 == pk) = false → acc.any (fun kv => kv.1 == "n." ++ fp.2) = false) →
    l.foldl (fun acc fp => if fp.1 == pk then acc
      else mapInsert acc ("n." ++ fp.2) (ent fp.1)) acc =
      acc ++ (l.filter (fun fp => !(fp.1 == pk))).map (fun fp => ("n." ++ fp.2, ent fp.1)) := by
  intro l
  induction l with
  | nil => intro acc _ _; simp
  | cons fp l' ih =>
    intro acc hnodup hacc
    by_cases hpk : (fp.1 == pk) = true
    · have hfilter : (fp :: l').filter (fun fp => !(fp.1 == pk)) =
          l'.filter (fun fp => !(fp.1 == pk)) := by
        simp [List.filter, hpk]
      rw [List.foldl_cons, if_pos hpk, hfilter]
      rw [hfilter] at hnodup
      exact ih acc hnodup (fun fp' hfp' => hacc fp' (List.mem_cons_of_mem _ hfp'))
    · have hpkf : (fp.1 == pk) = false := by
        cases h2 : (fp.1 == pk) with
        | true => exact absurd h2 hpk
        | false => rfl
      have hfilter : (fp :: l').filter (fun fp => !(fp.1 == pk)) =
          fp :: l'.filter (fun fp => !(fp.1 == pk)) := by
        simp [List.filter, hpkf]
      rw [hfilter] at hnodup
      rw [List.map_cons] at hnodup
      obtain ⟨hnotin, hnodup'⟩ := List.nodup_cons.mp hnodup
      have haccf : acc.any (fun kv => kv.1 == "n." ++ fp.2) = false :=
        hacc fp (List.mem_cons_self _ _) hpkf
      have hins : mapInsert acc ("n." ++ fp.2) (ent fp.1) = acc ++ [("n." ++ fp.2, ent fp.1)] := by
        unfold mapInsert
        rw [haccf]
        simp
      rw [List.foldl_cons, if_neg (by rw [hpkf]; exact Bool.false_ne_true), hins]
      have hacc' : ∀ fp' ∈ l', (fp'.1 == pk) = false →
          (acc ++ [("n." ++ fp.2, ent fp.1)]).any (fun kv => kv.1 == "n." ++ fp'.2) = false := by
        intro fp' hfp' hfp'pk
        rw [List.any_append]
        have h1 := hacc fp' (List.mem_cons_of_mem _ hfp') hfp'pk
        have hkeymem : "n." ++ fp'.2 ∈ (l'.filter (fun fp => !(fp.1 == pk))).map
            (fun fp => "n." ++ fp.2) :=
          List.mem_map.mpr ⟨fp', List.mem_filter.mpr ⟨hfp', by rw [hfp'pk]; rfl⟩, rfl⟩
        have hne : ("n." ++ fp.2) ≠ ("n." ++ fp'.2) := fun hh => hnotin (hh ▸ hkeymem)
        simp only [h1, List.any_cons, List.any_nil, Bool.or_false, Bool.false_or]
        exact beq_false_of_ne hne
      rw [ih (acc ++ [("n." ++ fp.2, ent fp.1)]) hnodup' hacc', hfilter, List.map_cons]
      simp [List.append_assoc]

theorem saveSetProps_eq (meta : entityMetadata) (ent : String → PrimValue)
    (hinj : (meta.Mappings.map Prod.snd).Nodup) :
    saveSetProps meta ent =
      (meta.Mappings.filter (fun fp => !(fp.1 == meta.PKField))).map
        (fun fp => ("n." ++ fp.2, ent fp.1)) := by
  have hsub : List.Sublist
      ((meta.Mappings.filter (fun fp => !(fp.1 == meta.PKField))).map Prod.snd)
      (meta.Mappings.map Prod.snd) :=
    (List.filter_sublist _).map _
  have hsnd : ((meta.Mappings.filter (fun fp => !(fp.1 == meta.PKField))).map Prod.snd).Nodup :=
    hinj.sublist hsub
  have hkeys : ((meta.Mappings.filter (fun fp => !(fp.1 == meta.PKField))).map
      (fun fp => "n." ++ fp.2)).Nodup := by
    have hmm : (meta.Mappings.filter (fun fp => !(fp.1 == meta.PKField))).map
        (fun fp => "n." ++ fp.2) =
        ((meta.Mappings.filter (fun fp => !(fp.1 == meta.PKField))).map Prod.snd).map
          (fun p => "n." ++ p) := by
      rw [List.map_map]
      rfl
    rw [hmm]
    exact hsnd.map nKey_injective
  have hmain := saveSetProps_foldl meta.PKField ent meta.Mappings [] hkeys
    (fun fp _ _ => rfl)
  simpa [saveSetProps] using hmain

/-- Claim C9: for every entity, `Save` builds a single upsert query whose
merge pattern carries exactly one property, the primary-key property bound
to the record's primary-key field value, and whose SET clause assigns
exactly the set of non-primary-key mapped properties (as `n.<property>`)
from the record's current field values; the primary-key property never
appears in the SET clause.  (Hypotheses: the primary-key pair is in the
mapping and mapped property names are pairwise distinct, both of which
`parseTagsFromType` establishes for well-formed tag sets.) -/
theorem save_upsert_shape :
    ∀ (meta : entityMetadata) (ent : String → PrimValue),
    (meta.PKField, meta.PKProp) ∈ meta.Mappings →
    (meta.Mappings.map Prod.snd).Nodup →
    saveQuery meta ent = .mergeSetQ meta.Label (saveMergeProps meta ent) (saveSetProps meta ent) ∧
    saveMergeProps meta ent = [(meta.PKProp, ent meta.PKField)] ∧
    (∀ kv, kv ∈ saveSetProps meta ent ↔
       ∃ fp ∈ meta.Mappings, fp.1 ≠ meta.PKField ∧ kv = ("n." ++ fp.2, ent fp.1)) ∧
    (∀ kv ∈ saveSetProps meta ent, kv.1 ≠ "n." ++ meta.PKProp) := by
  intro meta ent hmem hinj
  have hset := saveSetProps_eq meta ent hinj
  refine ⟨rfl, rfl, ?_, ?_⟩
  · intro kv
    rw [hset]
    constructor
    · intro hkv
      obtain ⟨fp, hfp, rfl⟩ := List.mem_map.mp hkv
      obtain ⟨hfpm, hfpp⟩ := List.mem_filter.mp hfp
      refine ⟨fp, hfpm, ?_, rfl⟩
      intro hh
      rw [hh] at hfpp
      simp at hfpp
    · rintro ⟨fp, hfp, hne, rfl⟩
      exact List.mem_map.mpr ⟨fp, List.mem_filter.mpr ⟨hfp, by rw [beq_false_of_ne hne]; rfl⟩, rfl⟩
  · intro kv hkv hkey
    rw [hset] at hkv
    obtain ⟨fp, hfp, rfl⟩ := List.mem_map.mp hkv
    obtain ⟨hfpm, hfpp⟩ := List.mem_filter.mp hfp
    have h2 : fp.2 = meta.PKProp := strAppend_left_cancel hkey
    have h3 : fp = (meta.PKField, meta.PKProp) :=
      List.inj_on_of_nodup_map hinj hfpm hmem (by rw [h2])
    rw [h3] at hfpp
    simp at hfpp

/-- Witness for C9 at a concrete record: the merge pattern binds `userId`
to the record's key, the SET clause carries `n.name`, and no SET key is
`n.userId`. -/
theorem save_upsert_shape_witness :
    saveMergeProps metaU entU = [("userId", PrimValue.vStr "u1")] ∧
    ("n.name", PrimValue.vStr "Alice") ∈ saveSetProps metaU entU ∧
    (∀ kv ∈ saveSetProps metaU entU, kv.1 ≠ "n.userId") := by
  have h := save_upsert_shape metaU entU (by decide) (by decide)
  refine ⟨h.2.1.trans (by decide), ?_, ?_⟩
  · exact (h.2.2.1 ("n.name", .vStr "Alice")).mpr
      ⟨("Name", "name"), by decide, by decide, by decide⟩
  · intro kv hkv hh
    exact h.2.2.2 kv hkv (hh.trans (by decide))
